import Mathlib

/-!
# Verification of the dazzle build engine against its specification

This file gives a shallow embedding of the parts of dazzle (a container-image
build system) that the specification's claims are about, and settles each
claim against the embedding:

* the OCI data model used throughout (`Descriptor`, `Manifest`, `Image`),
* the base-layer subtraction algorithm `removeBaseLayer`,
* the build options (`BuildOpts`, `withNoTests`) and the per-chunk test gate,
* the chunk fingerprint document (`manifestDoc`) and its per-image-type
  tests inclusion (`excludeTestsForType`),
* the combiner (`combineImage`, `combine`) and the two env-merge routines,
* the registry push path (`registryPush`),
* the test runner (`runTestsGo`),
* the combination reference resolution (`resolveCombinations`).

External effects (the registry transport, the JSON encoder and digester, the
build daemon, the container test executor) enter as explicit function
parameters; everything else is translated from the Go source.
-/

namespace Dazzle

/-! ## OCI data model

Mirrors the `ociv1` structures the source manipulates: `ociv1.Descriptor`,
`ociv1.Manifest`, `ociv1.Image` (with `RootFS`, `History` and the inner
`ImageConfig`).  Maps (annotations, exposed ports) are modelled as
association lists in insertion order; Go map iteration order is unspecified,
and no claim depends on it. -/

structure Descriptor where
  mediaType : String
  digest : String
  size : Int
  deriving DecidableEq, Repr

structure RootFS where
  fsType : String
  diffIDs : List String
  deriving DecidableEq, Repr

structure HistoryEntry where
  createdBy : String
  emptyLayer : Bool
  deriving DecidableEq, Repr

structure ImageConfig where
  user : String
  exposedPorts : List String
  env : List String
  entrypoint : List String
  cmd : List String
  workingDir : String
  stopSignal : String
  deriving DecidableEq, Repr

structure Image where
  created : Option Nat
  architecture : String
  os : String
  config : ImageConfig
  rootfs : RootFS
  history : List HistoryEntry
  deriving DecidableEq, Repr

structure Manifest where
  schemaVersion : Nat
  config : Descriptor
  layers : List Descriptor
  annotations : List (String × String)
  deriving DecidableEq, Repr

def mediaTypeImageConfig : String := "application/vnd.oci.image.config.v1+json"

def mediaTypeImageLayerGzip : String := "application/vnd.oci.image.layer.v1.tar+gzip"

def mediaTypeImageManifest : String := "application/vnd.oci.image.manifest.v1+json"

def mfAnnotationBaseRef : String := "dazzle.gitpod.io/base-ref"

/-- Go slice expression `xs[n:]`: legal for `n ≤ len(xs)` (capacity equals
length for JSON-decoded slices), and a runtime panic otherwise. -/
def goSliceFrom {α : Type} (xs : List α) (n : Nat) : Option (List α) :=
  if n ≤ xs.length then some (xs.drop n) else none

/-- Go map assignment `m[k] = v` on an association list: overwrite in place
if the key is present, append otherwise. -/
def alistSet (m : List (String × String)) (k v : String) : List (String × String) :=
  if m.any (fun e => e.1 = k) then m.map (fun e => if e.1 = k then (k, v) else e)
  else m ++ [(k, v)]

/-! ## Layer subtraction (`removeBaseLayer`, unnamed part 005 lines 283-419)

The registry pulls and pushes surrounding the pure rewrite are external; the
embedding covers the prefix check and the manifest/config rewrite, which is
what the claims quantify over.  `mkCfgDesc` abstracts
`json.Marshal` + `digest.FromBytes` + `Size` (step: the Go code builds the
new config descriptor from the serialized rewritten config). -/

/-- Outcome of `removeBaseLayer`.  `panics` is a Go runtime panic
(index out of range / slice bounds out of range), which the Go function does
not catch. -/
inductive RBLOut where
  | ok (mf : Manifest) (cfg : Image)
  | notBuiltFromBase (msg : String)
  | panics
  deriving DecidableEq, Repr

/-- One iteration of the check loop in `removeBaseLayer` (part 005 lines
289-312).  Note the source's bounds checks are `len < i` — not `len <= i` —
so the subsequent indexing can panic when `len == i`; the spec flags this
off-by-one. -/
def rblCheckIdx (basemf : Manifest) (basecfg : Image) (chkmf : Manifest)
    (chkcfg : Image) (i : Nat) : Except RBLOut Unit :=
  if chkmf.layers.length < i then
    .error (.notBuiltFromBase "chunk was not built from base image (too few layers)")
  else if chkcfg.rootfs.diffIDs.length < i then
    .error (.notBuiltFromBase "chunk was not built from base image (too few diffIDs)")
  else
    match basemf.layers[i]?, basecfg.rootfs.diffIDs[i]?,
        chkmf.layers[i]?, chkcfg.rootfs.diffIDs[i]? with
    | some bl, some bd, some cl, some cd =>
      if bl.digest ≠ cl.digest then
        .error (.notBuiltFromBase
          ("chunk was not built from base image: digest mismatch on layer: base "
            ++ bl.digest ++ " != chunk " ++ cl.digest))
      else if bd ≠ cd then
        .error (.notBuiltFromBase
          ("chunk was not built from base image: digest mismatch on diffID: base "
            ++ bd ++ " != chunk " ++ cd))
      else .ok ()
    | _, _, _, _ => .error .panics

/-- The check loop `for i := range opts.basemf.Layers`, unrolled as a
recursion on the remaining iteration count `k` starting at index `i`. -/
def rblCheckFrom (basemf : Manifest) (basecfg : Image) (chkmf : Manifest)
    (chkcfg : Image) : Nat → Nat → Except RBLOut Unit
  | _, 0 => .ok ()
  | i, k + 1 =>
    match rblCheckIdx basemf basecfg chkmf chkcfg i with
    | .error e => .error e
    | .ok _ => rblCheckFrom basemf basecfg chkmf chkcfg (i + 1) k

/-- `removeBaseLayer` (unnamed part 005 lines 283-348, the check and rewrite
portion; the subsequent pushes act on the returned values). -/
def removeBaseLayer (mkCfgDesc : Image → Descriptor) (baseref : String)
    (basemf : Manifest) (basecfg : Image) (chkmf : Manifest) (chkcfg : Image) : RBLOut :=
  match rblCheckFrom basemf basecfg chkmf chkcfg 0 basemf.layers.length with
  | .error e => e
  | .ok _ =>
    let n := basecfg.rootfs.diffIDs.length
    match goSliceFrom chkcfg.rootfs.diffIDs n,
        goSliceFrom chkcfg.history basecfg.history.length with
    | some newDiffs, some newHist =>
      let ncfg : Image := { chkcfg with
        rootfs := { fsType := chkcfg.rootfs.fsType, diffIDs := newDiffs },
        history := newHist }
      match goSliceFrom chkmf.layers basemf.layers.length with
      | some rest =>
        let nlayers := rest.map (fun l => { l with mediaType := mediaTypeImageLayerGzip })
        let nmf : Manifest := { chkmf with
          config := mkCfgDesc ncfg,
          layers := nlayers,
          annotations := alistSet chkmf.annotations mfAnnotationBaseRef baseref }
        .ok nmf ncfg
      | none => .panics
    | _, _ => .panics

/-! Concrete inputs for the `removeBaseLayer` corner cases. -/

/-- Stand-in for the serialize-and-digest step at a concrete input. -/
def cexMkDesc : Image → Descriptor := fun _ => ⟨mediaTypeImageConfig, "sha256:cfg", 0⟩

/-- Base with no layers and no diff-IDs but one history entry. -/
def cexBaseMF : Manifest := ⟨2, ⟨mediaTypeImageConfig, "sha256:bc", 0⟩, [], []⟩

def cexBaseCfg : Image :=
  ⟨none, "amd64", "linux", ⟨"", [], [], [], [], "", ""⟩, ⟨"layers", []⟩, [⟨"RUN base", false⟩]⟩

/-- Full chunk image with no layers, no diff-IDs and no history. -/
def cexFullMF : Manifest := ⟨2, ⟨mediaTypeImageConfig, "sha256:fc", 0⟩, [], []⟩

def cexFullCfg : Image :=
  ⟨none, "amd64", "linux", ⟨"", [], [], [], [], "", ""⟩, ⟨"layers", []⟩, []⟩

/-- Base manifest with one layer (for the too-few-layers corner). -/
def cexBaseMF1 : Manifest :=
  ⟨2, ⟨mediaTypeImageConfig, "sha256:bc", 0⟩,
    [⟨mediaTypeImageLayerGzip, "sha256:base0", 5⟩], []⟩

def cexBaseCfg1 : Image :=
  ⟨none, "amd64", "linux", ⟨"", [], [], [], [], "", ""⟩, ⟨"layers", ["sha256:d0"]⟩, []⟩

/-! Witness inputs for the subtraction theorem: a one-layer base and a
two-layer full chunk image whose first layer and diff-ID agree with the
base byte for byte. -/

def wBaseMF : Manifest :=
  ⟨2, ⟨mediaTypeImageConfig, "sha256:bc", 0⟩,
    [⟨mediaTypeImageLayerGzip, "sha256:a", 1⟩], []⟩

def wBaseCfg : Image :=
  ⟨none, "amd64", "linux", ⟨"", [], [], [], [], "", ""⟩,
    ⟨"layers", ["sha256:da"]⟩, [⟨"RUN base", false⟩]⟩

def wFullMF : Manifest :=
  ⟨2, ⟨mediaTypeImageConfig, "sha256:fc", 0⟩,
    [⟨"application/vnd.docker.image.rootfs.diff.tar.gzip", "sha256:a", 1⟩,
     ⟨"application/vnd.docker.image.rootfs.diff.tar.gzip", "sha256:b", 2⟩], []⟩

def wFullCfg : Image :=
  ⟨none, "amd64", "linux", ⟨"", [], [], [], [], "", ""⟩,
    ⟨"layers", ["sha256:da", "sha256:db"]⟩,
    [⟨"RUN base", false⟩, ⟨"RUN chunk", false⟩]⟩

/-! ## Build options (unnamed part 005 lines 60-125)

`buildOpts` carries the per-session flags; each `With...` option is a
function mutating it.  The body of `WithNoTests` in the source assigns
`b.NoCache = enable` — that assignment is the subject of one of the
claims. -/

structure BuildOpts where
  cacheRef : Option String
  noCache : Bool
  noTests : Bool
  plainOutput : Bool
  chunkedWithoutHash : Bool
  deriving DecidableEq, Repr

def defaultBuildOpts : BuildOpts := ⟨none, false, false, false, false⟩

/-- `WithNoCache` (part 005 lines 104-109): sets the no-cache flag. -/
def withNoCache (enable : Bool) (b : BuildOpts) : BuildOpts :=
  { b with noCache := enable }

/-- `WithNoTests` (part 005 lines 112-117).  The Go body is
`b.NoCache = enable` — it writes the no-cache flag, not the no-tests
flag. -/
def withNoTests (enable : Bool) (b : BuildOpts) : BuildOpts :=
  { b with noCache := enable }

/-- `WithPlainOutput` (part 005 lines 96-101). -/
def withPlainOutput (enable : Bool) (b : BuildOpts) : BuildOpts :=
  { b with plainOutput := enable }

/-- The early-return guard of `ProjectChunk.test` (part 005 line 553):
the test phase is skipped when the session's no-tests flag is set or the
chunk has no tests.  `tests` stands for the chunk's parsed test specs; only
emptiness is inspected here. -/
def testPhaseSkipped (opts : BuildOpts) (tests : List String) : Bool :=
  opts.noTests || tests.isEmpty

/-! ## Chunk fingerprint (project.go lines 356-438 and 457-486)

`ProjectChunk.manifest` writes a canonical document to the hash; the
document is a function of the base reference, the Dockerfile bytes, the
enumerated context lines (already formatted, one per file, produced by the
filesystem walk — external here) and the YAML-serialized test specs
(serializer external).  `ProjectChunk.hash` feeds the document to a fixed
keyed hash, abstracted as `hashFn`. -/

/-- `strings.Join(xs, sep)`. -/
def joinWith (sep : String) : List String → String
  | [] => ""
  | [x] => x
  | x :: y :: xs => x ++ sep ++ joinWith sep (y :: xs)

/-- The document written by `ProjectChunk.manifest` (project.go lines
428-436): optional Baseref line, Dockerfile line, Sources block, and —
only when `excludeTests` is false — the Tests block. -/
def manifestDoc (baseref dockerfile : String) (sources : List String)
    (testsYaml : String) (excludeTests : Bool) : String :=
  (if baseref ≠ "" then "Baseref: " ++ baseref ++ "\n" else "")
    ++ ("Dockerfile: " ++ dockerfile ++ "\n")
    ++ ("Sources:\n" ++ joinWith "\n" sources ++ "\n")
    ++ (if excludeTests then "" else "Tests:\n" ++ testsYaml ++ "\n")

/-- The chunk image artifact types (project.go lines 440-455). -/
inductive ChunkImageType where
  | test
  | full
  | chunked
  | chunkedNoHash
  | testResult
  deriving DecidableEq, Repr

/-- From `ProjectChunk.ImageName` (project.go line 481): the hash is taken
with `excludeTests = !(tpe == ImageTypeTest || tpe == imageTypeTestResult)`. -/
def excludeTestsForType (tpe : ChunkImageType) : Bool :=
  !(tpe == ChunkImageType.test || tpe == ChunkImageType.testResult)

/-- `ProjectChunk.hash` as used by `ImageName`: the keyed hash (`hashFn`,
external) of the manifest document for the image type's tests-inclusion
bit. -/
def chunkFingerprint (hashFn : String → String) (baseref dockerfile : String)
    (sources : List String) (testsYaml : String) (tpe : ChunkImageType) : String :=
  hashFn (manifestDoc baseref dockerfile sources testsYaml (excludeTestsForType tpe))

/-! ## String splitting helpers

`strings.Split(s, sep)` for a one-character separator, implemented over the
character list so that it evaluates inside the kernel. -/

def splitCharList (sep : Char) : List Char → List (List Char)
  | [] => [[]]
  | c :: cs =>
    match splitCharList sep cs with
    | [] => [[c]]
    | f :: rest => if c = sep then [] :: f :: rest else (c :: f) :: rest

/-- `strings.Split(e, sep)` for a single-character separator. -/
def goSplit (sep : Char) (s : String) : List String :=
  (splitCharList sep s.data).map String.mk

/-- `strings.Split(e, "=")`, as used on env entries. -/
def envSplit (e : String) : List String := goSplit '=' e

/-! ## Combiner (combiner.go lines 39-305)

The combiner pulls the picked chunks' chunked manifests and configs,
concatenates layers, diff-IDs and histories after the base, merges env,
exposed ports and annotations, and pushes config then manifest.  Registry
reads enter through `CombineCtx.chunkMeta`; pushes are recorded as
`PushEvent`s; the containerised test execution enters through
`CombineCtx.runTestsAt`. -/

def alistGet (m : List (String × String)) (k : String) : Option String :=
  (m.find? (fun e => e.1 = k)).map Prod.snd

/-- First loop of `mergeEnv` (combiner.go lines 271-277): base entries,
last writer wins per name. -/
def mergeEnvSrcBase : List String → List (String × String) → Except String (List (String × String))
  | [], m => .ok m
  | e :: rest, m =>
    match envSplit e with
    | [k, v] => mergeEnvSrcBase rest (alistSet m k v)
    | _ => .error ("env var " ++ e ++ " in invalid")

/-- Second loop of `mergeEnv` (combiner.go lines 279-294): entries of one
image, concatenating onto an existing value with a semicolon. -/
def mergeEnvSrcOther : List String → List (String × String) → Except String (List (String × String))
  | [], m => .ok m
  | e :: rest, m =>
    match envSplit e with
    | [k, v] =>
      match alistGet m k with
      | some ov => mergeEnvSrcOther rest (alistSet m k (ov ++ ";" ++ v))
      | none => mergeEnvSrcOther rest (alistSet m k v)
    | _ => .error ("env var " ++ e ++ " in invalid")

def mergeEnvSrcOthers : List (List String) → List (String × String) → Except String (List (String × String))
  | [], m => .ok m
  | env :: rest, m =>
    match mergeEnvSrcOther env m with
    | .error e => .error e
    | .ok m2 => mergeEnvSrcOthers rest m2

/-- `mergeEnv` as it stands in combiner.go lines 269-305: no per-name
policies; collisions between chunks are joined with `";"`; the final map is
rendered as `NAME=VALUE` entries (map order modelled as insertion order). -/
def mergeEnvSrc (baseEnv : List String) (otherEnvs : List (List String)) :
    Except String (List String) :=
  match mergeEnvSrcBase baseEnv [] with
  | .error e => .error e
  | .ok m =>
    match mergeEnvSrcOthers otherEnvs m with
    | .error e => .error e
    | .ok m2 => .ok (m2.map (fun e => e.1 ++ "=" ++ e.2))

/-- `mergeAnnotations` (combiner.go lines 237-251): start from the base
manifest's annotations, add the others' keys first-writer-wins. -/
def unionSkipExisting (res add : List (String × String)) : List (String × String) :=
  add.foldl (fun res kv => if res.any (fun e => e.1 = kv.1) then res else res ++ [kv]) res

def mergeAnnotations (base : Manifest) (others : List Manifest) : List (String × String) :=
  others.foldl (fun res m => unionSkipExisting res m.annotations) base.annotations

/-- `mergeExposedPorts` (combiner.go lines 253-267); the port set is keyed
by the port string. -/
def unionSkipExistingKeys (res add : List String) : List String :=
  add.foldl (fun res k => if res.contains k then res else res ++ [k]) res

def mergeExposedPorts (base : Image) (others : List Image) : List String :=
  others.foldl (fun res c => unionSkipExistingKeys res c.config.exposedPorts)
    base.config.exposedPorts

/-- The pure synthesis step of `Project.Combine` (combiner.go lines
104-196): aggregate layers, diff-IDs and histories over base-then-chunks,
build the combined config and manifest.  As in the source, the full `cfgs`
list (base included) is passed to the env and port merges a second time.
`mkCfgDesc` abstracts the serialize-and-digest step; `now` the `time.Now()`
timestamp. -/
def combineImage (mkCfgDesc : Image → Descriptor) (now : Nat)
    (basemf : Manifest) (basecfg : Image) (chunkMeta : List (Manifest × Image)) :
    Except String (Manifest × Image) :=
  let mfs : List Manifest := basemf :: chunkMeta.map Prod.fst
  let cfgs : List Image := basecfg :: chunkMeta.map Prod.snd
  let allLayer := (mfs.map Manifest.layers).flatten
  let allDiffs := (cfgs.map (fun c => c.rootfs.diffIDs)).flatten
  let allHist := (cfgs.map Image.history).flatten
  match mergeEnvSrc basecfg.config.env (cfgs.map (fun c => c.config.env)) with
  | .error e => .error e
  | .ok env =>
    let ccfg : Image := {
      created := some now,
      architecture := basecfg.architecture,
      history := allHist,
      os := basecfg.os,
      config := {
        stopSignal := basecfg.config.stopSignal,
        cmd := basecfg.config.cmd,
        entrypoint := basecfg.config.entrypoint,
        exposedPorts := mergeExposedPorts basecfg cfgs,
        env := env,
        user := basecfg.config.user,
        workingDir := basecfg.config.workingDir },
      rootfs := { fsType := basecfg.rootfs.fsType, diffIDs := allDiffs } }
    let cmf : Manifest := {
      schemaVersion := basemf.schemaVersion,
      annotations := mergeAnnotations basemf mfs,
      config := mkCfgDesc ccfg,
      layers := allLayer }
    .ok (cmf, ccfg)

/-- A chunk as the combiner sees it: its expanded name and its test specs
(identified abstractly; only emptiness and identity matter to `Combine`). -/
structure ProjectChunkModel where
  name : String
  tests : List String
  deriving DecidableEq, Repr

/-- The collaborators of `Project.Combine`: the project's chunk list, the
registry read (chunk name to chunked manifest and config), the session's
resolved base manifest and config, the container test executor (image ref
and test specs to pass or fail), the serializer and the clock. -/
structure CombineCtx where
  projChunks : List ProjectChunkModel
  chunkMeta : String → Option (Manifest × Image)
  baseMF : Manifest
  baseCfg : Image
  runTestsAt : String → List String → Bool
  mkCfgDesc : Image → Descriptor
  now : Nat

/-- A registry write performed by the combiner. -/
inductive PushEvent where
  | config (ref : String)
  | manifest (ref : String)
  deriving DecidableEq, Repr

/-- Chunk name resolution (combiner.go lines 88-102): each picked name must
name a project chunk. -/
def resolvePicked (proj : List ProjectChunkModel) : List String → Except String (List ProjectChunkModel)
  | [] => .ok []
  | cn :: rest =>
    match proj.find? (fun c => c.name = cn) with
    | some c =>
      match resolvePicked proj rest with
      | .error e => .error e
      | .ok cs => .ok (c :: cs)
    | none => .error ("chunk " ++ cn ++ " not found")

/-- Metadata pull for each picked chunk (combiner.go lines 117-129). -/
def pullChunkMeta (meta : String → Option (Manifest × Image)) :
    List ProjectChunkModel → Except String (List (Manifest × Image))
  | [] => .ok []
  | c :: rest =>
    match meta c.name with
    | some mi =>
      match pullChunkMeta meta rest with
      | .error e => .error e
      | .ok ms => .ok (mi :: ms)
    | none => .error ("cannot pull chunk metadata: " ++ c.name)

/-- The read-only portion of one `Combine` invocation: resolve the picked
chunks, pull their metadata, synthesize the combined image. -/
def combinePlan (cx : CombineCtx) (chunks : List String) :
    Except String (List ProjectChunkModel × Manifest × Image) :=
  match resolvePicked cx.projChunks chunks with
  | .error e => .error e
  | .ok cs =>
    match pullChunkMeta cx.chunkMeta cs with
    | .error e => .error e
    | .ok metas =>
      match combineImage cx.mkCfgDesc cx.now cx.baseMF cx.baseCfg metas with
      | .error e => .error e
      | .ok mfcfg => .ok (cs, mfcfg)

/-- The post-push test loop (combiner.go lines 219-232): chunks without
tests are skipped; the first failing chunk aborts. -/
def runChunkTests (runTestsAt : String → List String → Bool) (dest : String) :
    List ProjectChunkModel → Option String
  | [] => none
  | c :: rest =>
    if c.tests.isEmpty then runChunkTests runTestsAt dest rest
    else if runTestsAt dest c.tests then runChunkTests runTestsAt dest rest
    else some "tests failed"

/-- One `Combine` invocation past the temp-build dispatch (combiner.go
lines 88-234): plan, push config then manifest to `dest`, then — when
tests are requested — run the picked chunks' tests against `dest`. -/
def combineBody (cx : CombineCtx) (chunks : List String) (runTests : Bool)
    (dest : String) (st : List PushEvent) : List PushEvent × Option String :=
  match combinePlan cx chunks with
  | .error e => (st, some e)
  | .ok (cs, _, _) =>
    let st2 := st ++ [PushEvent.config dest, PushEvent.manifest dest]
    if runTests then
      match runChunkTests cx.runTestsAt dest cs with
      | some e => (st2, some e)
      | none => (st2, none)
    else (st2, none)

/-- `Project.Combine` (combiner.go lines 64-235).  When tests are requested
and this is not already a temp build, a full combination is first done at
`<dest>:temp<unix-epoch>` with tests (that is the recursive call with
`asTempBuild`, unfolded here), and only on success is the real combination
done at `dest` with tests switched off. -/
def combine (cx : CombineCtx) (chunks : List String) (dest : String)
    (runTests tempBuild : Bool) (st : List PushEvent) : List PushEvent × Option String :=
  if runTests && !tempBuild then
    let tmpdest := dest ++ ":temp" ++ toString cx.now
    match combineBody cx chunks true tmpdest st with
    | (st2, some e) => (st2, some e)
    | (st2, none) => combineBody cx chunks false dest st2
  else combineBody cx chunks runTests dest st

/-! ## Policy-based env merge

The repository's own test file (combiner_test.go, `TestMergeEnv`) calls a
three-argument `mergeEnv(base, others, vars)` with per-name
`EnvVarCombination` actions; that function body is not among the source
files (the `mergeEnv` in combiner.go takes two arguments and knows no
actions), so the routine is modelled from the specification here. -/

/-- Keep the first occurrence of each string, dropping later duplicates. -/
def dedupFirstAux (seen : List String) : List String → List String
  | [] => []
  | x :: xs =>
    if x ∈ seen then dedupFirstAux seen xs
    else x :: dedupFirstAux (x :: seen) xs

def dedupFirst (l : List String) : List String := dedupFirstAux [] l

def entryName (e : String) : String := (envSplit e).headD ""

def entryValue (e : String) : String := (envSplit e).getD 1 ""

/-- The values carried by the entries of one env list for a given name, in
order. -/
def envVals (env : List String) (n : String) : List String :=
  (env.filter (fun e => entryName e = n)).map entryValue

/-- All contributions for a name, in the order base, chunk 1, ..., chunk k. -/
def envContribs (baseEnv : List String) (otherEnvs : List (List String)) (n : String) :
    List String :=
  envVals baseEnv n ++ (otherEnvs.map (fun env => envVals env n)).flatten

/-- The names appearing across base and chunk env lists, first appearance
first. -/
def envNames (baseEnv : List String) (otherEnvs : List (List String)) : List String :=
  dedupFirst ((baseEnv ++ otherEnvs.flatten).map entryName)

def splitColon (s : String) : List String := goSplit ':' s

/-- Reject any entry that does not split into exactly NAME and VALUE. -/
def checkEnvWellformed : List String → Except String Unit
  | [] => .ok ()
  | e :: rest =>
    if (envSplit e).length = 2 then checkEnvWellformed rest
    else .error ("env var " ++ e ++ " in invalid")

/-- Action lookup; a name absent from the policy list defaults to merge. -/
def actionFor (vars : List (String × String)) (n : String) : String :=
  match vars.find? (fun v => v.1 = n) with
  | some v => v.2
  | none => "merge"

/-- Modelled from the spec: the per-name combination actions of `merge_env`
(spec 4.F).  `merge` joins all contributions with a colon, base first, no
deduplication; `merge-unique` additionally splits each contribution on the
colon and keeps first occurrences; `use-last` takes the last chunk that
sets the name, falling back to the base; `use-first` takes the base when
set, else the first chunk; unknown actions are an error. -/
def applyEnvAction (action : String) (baseVals chunkVals : List String) :
    Except String String :=
  if action = "merge" then .ok (joinWith ":" (baseVals ++ chunkVals))
  else if action = "merge-unique" then
    .ok (joinWith ":" (dedupFirst (((baseVals ++ chunkVals).map splitColon).flatten)))
  else if action = "use-last" then
    .ok ((chunkVals.getLast?).getD ((baseVals.getLast?).getD ""))
  else if action = "use-first" then
    .ok (baseVals.headD (chunkVals.headD ""))
  else .error ("unknown env var combination action " ++ action)

/-- Render each name into a `NAME=VALUE` entry, stopping at the first
failing action. -/
def buildEnvEntries (f : String → Except String String) : List String → Except String (List String)
  | [] => .ok []
  | n :: rest =>
    match f n with
    | .error e => .error e
    | .ok v =>
      match buildEnvEntries f rest with
      | .error e => .error e
      | .ok out => .ok ((n ++ "=" ++ v) :: out)

/-- Modelled from the spec: the three-argument `mergeEnv(base, others,
vars)` exercised by `TestMergeEnv` but absent from the source files.
Entries are validated (`MalformedEnv` on anything but one `=`), names are
processed in first-appearance order, and each name's value is produced by
its configured action (default merge). -/
def mergeEnvPolicy (baseEnv : List String) (otherEnvs : List (List String))
    (vars : List (String × String)) : Except String (List String) :=
  match checkEnvWellformed (baseEnv ++ otherEnvs.flatten) with
  | .error e => .error e
  | .ok _ =>
    buildEnvEntries
      (fun n => applyEnvAction (actionFor vars n) (envVals baseEnv n)
        ((otherEnvs.map (fun env => envVals env n)).flatten))
      (envNames baseEnv otherEnvs)

/-! ## Registry push (resolver.go lines 98-180)

`resolverRegistry.Push` uploads an optional config blob and then the
manifest through a containerd pusher.  Each underlying operation's outcome
is a `PushResp`; `PusherBehavior` fixes the outcomes of the eight
operations one `Push` invocation can perform. -/

inductive PushResp where
  | ok
  | alreadyExists
  | failed (msg : String)
  deriving DecidableEq, Repr

/-- The Go `error` value of an operation (`nil` for ok). -/
def respErr : PushResp → Option String
  | .ok => none
  | .alreadyExists => some "content already exists"
  | .failed m => some m

structure PusherBehavior where
  pushConfig : PushResp
  writeConfig : PushResp
  commitConfig : PushResp
  closeConfig : PushResp
  pushManifest : PushResp
  writeManifest : PushResp
  commitManifest : PushResp
  closeManifest : PushResp
  deriving DecidableEq, Repr

/-- Config-blob upload (resolver.go lines 129-149): `AlreadyExists` from
the pusher's `Push` skips the write; any error from `Write`, `Commit` or
`Close` — `AlreadyExists` included — is returned. -/
def registryPushConfigStep (p : PusherBehavior) : Except String Unit :=
  match p.pushConfig with
  | .alreadyExists => .ok ()
  | .failed m => .error m
  | .ok =>
    match respErr p.writeConfig with
    | some m => .error m
    | none =>
      match respErr p.commitConfig with
      | some m => .error m
      | none =>
        match respErr p.closeConfig with
        | some m => .error m
        | none => .ok ()

/-- Manifest upload (resolver.go lines 151-173).  The source checks
`if err != nil { return nil, err }` immediately after `pusher.Push`, so any
error — `AlreadyExists` included — is returned; the later
`else if !errdefs.IsAlreadyExists(err)` branch is unreachable. -/
def registryPushManifestStep (p : PusherBehavior) : Except String Unit :=
  match respErr p.pushManifest with
  | some m => .error m
  | none =>
    match respErr p.writeManifest with
    | some m => .error m
    | none =>
      match respErr p.commitManifest with
      | some m => .error m
      | none =>
        match respErr p.closeManifest with
        | some m => .error m
        | none => .ok ()

/-- `resolverRegistry.Push` (resolver.go lines 98-180): optional config
upload, manifest upload, then the digested reference. -/
def registryPush (hasConfig : Bool) (p : PusherBehavior) (ref dgst : String) :
    Except String String :=
  match (if hasConfig then registryPushConfigStep p else .ok ()) with
  | .error m => .error m
  | .ok _ =>
    match registryPushManifestStep p with
    | .error m => .error m
    | .ok _ => .ok (ref ++ "@" ++ dgst)

/-! ## Test runner (pkg/test/test.go lines 161-265)

`Spec.Run` produces one `TestResult`; `RunTests` folds a suite.  The
executor (local fork-exec or in-container) and the embedded-expression
assertion evaluator are external and enter as the parameters `exec` and
`evalA`. -/

structure RunResult where
  stdout : String
  stderr : String
  statusCode : Int
  deriving DecidableEq, Repr

structure TestSpec where
  desc : String
  skip : Bool
  assertions : List String
  deriving DecidableEq, Repr

structure ErrResult where
  message : String
  errType : String
  deriving DecidableEq, Repr

structure TestResult where
  desc : String
  skipped : Bool
  error : Option ErrResult
  failure : Option ErrResult
  runResult : Option RunResult
  deriving DecidableEq, Repr

/-- What one assertion evaluates to: a runtime error, a non-boolean, or a
boolean. -/
inductive AssertOutcome where
  | errored (msg : String)
  | nonBool
  | value (b : Bool)
  deriving DecidableEq, Repr

/-- `ValidateAssertions` (test.go lines 233-265): an evaluation error or a
non-boolean is an error; a false assertion records a failure and breaks;
the remaining assertions are not evaluated. -/
def validateAssertions (evalA : String → RunResult → AssertOutcome) (rr : RunResult) :
    List String → Except String (Option ErrResult)
  | [] => .ok none
  | a :: rest =>
    match evalA a rr with
    | .errored m => .error m
    | .nonBool => .error "assertion must evaluate to boolean value"
    | .value true => validateAssertions evalA rr rest
    | .value false => .ok (some ⟨"assertion failed: " ++ a, ""⟩)

/-- `Spec.Run` (test.go lines 201-230). -/
def specRun (exec : TestSpec → Except String RunResult)
    (evalA : String → RunResult → AssertOutcome) (s : TestSpec) : TestResult :=
  if s.skip then ⟨s.desc, true, none, none, none⟩
  else
    match exec s with
    | .error m => ⟨s.desc, false, some ⟨m, "runtime"⟩, none, none⟩
    | .ok rr =>
      match validateAssertions evalA rr s.assertions with
      | .error m => ⟨s.desc, false, some ⟨m, "assertion"⟩, none, some rr⟩
      | .ok (some f) => ⟨s.desc, false, none, some f, some rr⟩
      | .ok none => ⟨s.desc, false, none, none, some rr⟩

/-- The loop of `RunTests` (test.go lines 162-198): every test runs; an
error or a failure clears the success flag and the loop continues. -/
def runTestsGo (exec : TestSpec → Except String RunResult)
    (evalA : String → RunResult → AssertOutcome) :
    List TestSpec → Bool → List TestResult × Bool
  | [], success => ([], success)
  | t :: rest, success =>
    let r := specRun exec evalA t
    let success2 := if r.error.isSome then false
      else if r.failure.isSome then false else success
    let p := runTestsGo exec evalA rest success2
    (r :: p.1, p.2)

/-- `RunTests` (test.go lines 161-198). -/
def runTests (exec : TestSpec → Except String RunResult)
    (evalA : String → RunResult → AssertOutcome) (tests : List TestSpec) :
    List TestResult × Bool :=
  runTestsGo exec evalA tests true

/-! ## Combination reference resolution (project.go lines 219-286)

`resolveCombinations` turns the configured combinations into closed chunk
sets by iterating union-over-refs to a fixed point.  The Go index is a map
from combination name to its state; it is modelled as an association list
in input order (map iteration order is unspecified in Go, and every claim
proved below is order-independent).  Duplicate names would overwrite in the
Go map; the claims assume distinct names. -/

structure ChunkCombination where
  name : String
  ref : List String
  chunks : List String
  deriving DecidableEq, Repr

def namesOf (ipt : List ChunkCombination) : List String :=
  ipt.map ChunkCombination.name

def refsOfName (ipt : List ChunkCombination) (a : String) : List String :=
  ((ipt.find? (fun c => c.name = a)).map ChunkCombination.ref).getD []

def ownChunks (ipt : List ChunkCombination) (a : String) : Finset String :=
  ((ipt.find? (fun c => c.name = a)).map (fun c => c.chunks.toFinset)).getD ∅

/-- One `ref` edge of the combination graph. -/
def RefEdge (ipt : List ChunkCombination) (a b : String) : Prop :=
  b ∈ refsOfName ipt a

/-- Transitive reference: the combination named `b` is reachable from the
one named `a` along `ref` edges. -/
def Reaches (ipt : List ChunkCombination) : String → String → Prop :=
  Relation.ReflTransGen (RefEdge ipt)

/-- The mutable per-combination chunk sets of the Go index. -/
abbrev RState := List (String × Finset String)

def lookupSet (st : RState) (n : String) : Finset String :=
  ((st.find? (fun e => e.1 = n)).map Prod.snd).getD ∅

def updateSet (st : RState) (n : String) (s : Finset String) : RState :=
  st.map (fun e => if e.1 = n then (e.1, s) else e)

/-- The chunks contributed by the referenced combinations' current sets. -/
def unionRefs (st : RState) (rs : List String) : Finset String :=
  rs.foldl (fun acc r => acc ∪ lookupSet st r) ∅

/-- Processing one combination inside a pass (project.go lines 252-264):
pull in every chunk of every referenced combination, noting whether
anything was new. -/
def passStep (acc : RState × Bool) (entry : String × List String) : RState × Bool :=
  let add := unionRefs acc.1 entry.2
  let old := lookupSet acc.1 entry.1
  (updateSet acc.1 entry.1 (old ∪ add), if add ⊆ old then acc.2 else true)

/-- One pass of the fixed-point loop over all combinations. -/
def onePass (combos : List (String × List String)) (st : RState) : RState × Bool :=
  combos.foldl passStep (st, false)

/-- The `for ; changed && iterations >= 0; iterations--` loop (project.go
lines 246-265), with `fuel = iterations + 1` so that `fuel = 0` encodes the
exit with `iterations = -1`.  Returns the final state, the final `changed`
flag and the remaining fuel. -/
def loopGo (combos : List (String × List String)) : Nat → Bool → RState → RState × Bool × Nat
  | 0, ch, st => (st, ch, 0)
  | f + 1, ch, st =>
    if ch then
      let p := onePass combos st
      loopGo combos f p.2 p.1
    else (st, ch, f + 1)

def initState (ipt : List ChunkCombination) : RState :=
  ipt.map (fun c => (c.name, c.chunks.toFinset))

def refsIdx (ipt : List ChunkCombination) : List (String × List String) :=
  ipt.map (fun c => (c.name, c.ref))

/-- The unknown-reference check done while wiring up the index (project.go
lines 236-244). -/
def firstUnknownRef (ipt : List ChunkCombination) : Option (String × String) :=
  ipt.findSome? (fun c =>
    (c.ref.find? (fun r => !(namesOf ipt).contains r)).map (fun r => (c.name, r)))

/-- Result ordering relation: by combination name. -/
def byName (a b : ChunkCombination) : Prop := a.name ≤ b.name

instance : DecidableRel byName :=
  fun a b => inferInstanceAs (Decidable (a.name ≤ b.name))

instance : IsTotal ChunkCombination byName :=
  ⟨fun a b => le_total a.name b.name⟩

instance : IsTrans ChunkCombination byName :=
  ⟨fun _ _ _ h1 h2 => le_trans h1 h2⟩

/-- `resolveCombinations` (project.go lines 219-286): check refs, iterate
the union to a fixed point within `len + 1` loop iterations (the Go
`iterations` counter starts at `len(idx)+1` and the condition admits one
more pass, hence fuel `len + 2`), then emit each combination with its
chunks sorted and the result sorted by name.  The cyclic-reference error is
kept although the exit analysis below shows it unreachable, matching the
source. -/
def resolveCombinations (ipt : List ChunkCombination) : Except String (List ChunkCombination) :=
  match firstUnknownRef ipt with
  | some nr =>
    .error ("unknown combination \"" ++ nr.2 ++ "\" referenced in \"" ++ nr.1 ++ "\"")
  | none =>
    let r := loopGo (refsIdx ipt) (ipt.length + 2) true (initState ipt)
    if r.2.1 && r.2.2 == 1 then
      .error "could not resolve inter-combination references - there is probably a cyclic reference somewhere"
    else
      .ok (List.insertionSort byName
        (r.1.map (fun e => ChunkCombination.mk e.1 [] (Finset.sort (· ≤ ·) e.2))))

/-! Proof apparatus for `resolveCombinations`: iterated passes, bounded
reachability node sets, and the loop invariants. -/

/-- The state after `k` passes. -/
def passIter (combos : List (String × List String)) : Nat → RState → RState
  | 0, st => st
  | k + 1, st => (onePass combos (passIter combos k st)).1

/-- One breadth step at the far end of paths: add the direct references of
every node already reached. -/
def farStep (ipt : List ChunkCombination) (S : Finset String) : Finset String :=
  S ∪ S.biUnion (fun m => (refsOfName ipt m).toFinset)

/-- Nodes reachable from `n` within `k` reference steps, grown at the far
end. -/
def farReach (ipt : List ChunkCombination) (n : String) : Nat → Finset String
  | 0 => {n}
  | k + 1 => farStep ipt (farReach ipt n k)

/-- Nodes reachable from `n` within `k` reference steps, decomposed at the
first step. -/
def nearNodes (ipt : List ChunkCombination) : Nat → String → Finset String
  | 0, n => {n}
  | k + 1, n => insert n (((refsOfName ipt n).toFinset).biUnion (nearNodes ipt k))

/-- The chunks owned by combinations reachable within `k` steps. -/
def nearLevel (ipt : List ChunkCombination) (k : Nat) (n : String) : Finset String :=
  (nearNodes ipt k n).biUnion (ownChunks ipt)

/-- Every chunk in a state set is owned by some reachable combination. -/
def SoundState (ipt : List ChunkCombination) (st : RState) : Prop :=
  ∀ n x, x ∈ lookupSet st n → ∃ m, Reaches ipt n m ∧ x ∈ ownChunks ipt m

/-- Every combination's own chunks stay in its state set. -/
def OwnState (ipt : List ChunkCombination) (st : RState) : Prop :=
  ∀ n, ownChunks ipt n ⊆ lookupSet st n

/-- Input for the resolution witness: `b` references `a`. -/
def wCombos : List ChunkCombination :=
  [⟨"a", [], ["a0", "a1"]⟩, ⟨"b", ["a"], ["b0"]⟩]

/-! Concrete inputs for the combiner, registry-push and test-runner
theorems. -/

/-- A chunk's chunked manifest for the combiner examples. -/
def wChunkMF : Manifest :=
  ⟨2, ⟨mediaTypeImageConfig, "sha256:cc", 0⟩,
    [⟨mediaTypeImageLayerGzip, "sha256:b", 2⟩],
    [(mfAnnotationBaseRef, "reg/base@sha256:b")]⟩

def wChunkCfg : Image :=
  ⟨none, "amd64", "linux", ⟨"", [], [], [], [], "", ""⟩,
    ⟨"layers", ["sha256:db"]⟩, [⟨"RUN chunk", false⟩]⟩

/-- A combiner context with one chunk that has one test. -/
def wCombineCtx : CombineCtx where
  projChunks := [⟨"c1", ["t1"]⟩]
  chunkMeta := fun n => if n = "c1" then some (wChunkMF, wChunkCfg) else none
  baseMF := wBaseMF
  baseCfg := wBaseCfg
  runTestsAt := fun _ _ => true
  mkCfgDesc := cexMkDesc
  now := 0

/-- A pusher whose manifest push reports the content as already present. -/
def cexPusherMfExists : PusherBehavior :=
  ⟨.ok, .ok, .ok, .ok, .alreadyExists, .ok, .ok, .ok⟩

/-- A pusher whose config commit reports the content as already present. -/
def cexPusherCfgCommitExists : PusherBehavior :=
  ⟨.ok, .ok, .alreadyExists, .ok, .ok, .ok, .ok, .ok⟩

/-- An executor erroring on the first test and succeeding on the second. -/
def cexExecAB : TestSpec → Except String RunResult :=
  fun t => if t.desc = "a" then .error "boom" else .ok ⟨"out", "", 0⟩

def cexEvalTrue : String → RunResult → AssertOutcome := fun _ _ => .value true

def cexTestsAB : List TestSpec := [⟨"a", false, []⟩, ⟨"b", false, []⟩]

/-! ## Theorems -/

/-! ### Build options and the test gate -/

/-- C8: the no-tests option is claimed to make the per-chunk test phase a
no-op and to change no other option.  The source's `WithNoTests` body
assigns the no-cache flag instead: the no-tests flag is left untouched (so
a chunk with tests still enters the test phase) and the no-cache flag is
set — both conjuncts of the claim fail, against the option's own doc
comment. -/
theorem withNoTests_writes_noCache :
    (∀ (b : BuildOpts) (e : Bool),
      (withNoTests e b).noTests = b.noTests ∧ (withNoTests e b).noCache = e) ∧
    (withNoTests true defaultBuildOpts).noTests = false ∧
    (withNoTests true defaultBuildOpts).noCache = true ∧
    testPhaseSkipped (withNoTests true defaultBuildOpts) ["some-test"] = false :=
  ⟨fun _ _ => ⟨rfl, rfl⟩, rfl, rfl, rfl⟩

/-! ### Layer subtraction -/

/-- C2: a full chunk image with fewer layers than the base (here: base has
one layer, chunk has none).  The bounds check `len(chkmf.Layers) < i`
passes at `i = 0` with `len = 0`, and the subsequent `chkmf.Layers[0]`
indexing panics instead of returning the not-built-from-base error the
claim (and the spec) require. -/
theorem removeBaseLayer_too_few_layers_panics :
    removeBaseLayer cexMkDesc "reg/base@sha256:b" cexBaseMF1 cexBaseCfg1 cexFullMF cexFullCfg
      = .panics :=
  rfl

/-- C1 counterexample: base and full images whose layer-digest and diff-ID
prefixes match (both empty), but whose base history is longer than the full
image's.  The slice `chkcfg.History[len(basecfg.History):]` then panics, so
no chunked manifest is produced at all — the claim as stated fails on this
input. -/
theorem removeBaseLayer_short_history_panics :
    ((cexFullMF.layers.map Descriptor.digest).take cexBaseMF.layers.length
      = cexBaseMF.layers.map Descriptor.digest) ∧
    (cexFullCfg.rootfs.diffIDs.take cexBaseCfg.rootfs.diffIDs.length
      = cexBaseCfg.rootfs.diffIDs) ∧
    removeBaseLayer cexMkDesc "reg/base@sha256:b" cexBaseMF cexBaseCfg cexFullMF cexFullCfg
      = .panics :=
  ⟨rfl, rfl, rfl⟩

theorem rblCheckIdx_ok (basemf : Manifest) (basecfg : Image) (fullmf : Manifest)
    (fullcfg : Image)
    (hL : (fullmf.layers.map Descriptor.digest).take basemf.layers.length
      = basemf.layers.map Descriptor.digest)
    (hD : fullcfg.rootfs.diffIDs.take basecfg.rootfs.diffIDs.length
      = basecfg.rootfs.diffIDs)
    (hBD : basemf.layers.length ≤ basecfg.rootfs.diffIDs.length)
    (i : Nat) (hi : i < basemf.layers.length) :
    rblCheckIdx basemf basecfg fullmf fullcfg i = .ok () := by
  have hfl : basemf.layers.length ≤ fullmf.layers.length := by
    have h := congrArg List.length hL
    simp only [List.length_take, List.length_map] at h
    exact inf_eq_left.mp h
  have hfd : basecfg.rootfs.diffIDs.length ≤ fullcfg.rootfs.diffIDs.length := by
    have h := congrArg List.length hD
    simp only [List.length_take] at h
    exact inf_eq_left.mp h
  have hib : i < basecfg.rootfs.diffIDs.length := lt_of_lt_of_le hi hBD
  have hifl : i < fullmf.layers.length := lt_of_lt_of_le hi hfl
  have hifd : i < fullcfg.rootfs.diffIDs.length := lt_of_lt_of_le hib hfd
  have hdig : fullmf.layers[i].digest = basemf.layers[i].digest := by
    have h1 : (basemf.layers.map Descriptor.digest)[i]?
        = (fullmf.layers.map Descriptor.digest)[i]? := by
      conv_lhs => rw [← hL]
      rw [List.getElem?_take, if_pos hi]
    rw [List.getElem?_map, List.getElem?_map, List.getElem?_eq_getElem hi,
      List.getElem?_eq_getElem hifl] at h1
    simpa using h1.symm
  have hdiff : fullcfg.rootfs.diffIDs[i] = basecfg.rootfs.diffIDs[i] := by
    have h1 : basecfg.rootfs.diffIDs[i]? = fullcfg.rootfs.diffIDs[i]? := by
      conv_lhs => rw [← hD]
      rw [List.getElem?_take, if_pos hib]
    rw [List.getElem?_eq_getElem hib, List.getElem?_eq_getElem hifd] at h1
    simpa using h1.symm
  unfold rblCheckIdx
  rw [if_neg (by omega), if_neg (by omega)]
  rw [List.getElem?_eq_getElem hi, List.getElem?_eq_getElem hib,
    List.getElem?_eq_getElem hifl, List.getElem?_eq_getElem hifd]
  simp [hdig, hdiff]

theorem rblCheckFrom_ok (basemf : Manifest) (basecfg : Image) (fullmf : Manifest)
    (fullcfg : Image) :
    ∀ (k i : Nat),
      (∀ j, i ≤ j → j < i + k → rblCheckIdx basemf basecfg fullmf fullcfg j = .ok ()) →
      rblCheckFrom basemf basecfg fullmf fullcfg i k = .ok () := by
  intro k
  induction k with
  | zero => intro i _; rfl
  | succ k ih =>
    intro i h
    unfold rblCheckFrom
    rw [h i (le_refl i) (by omega)]
    exact ih (i + 1) (fun j hj1 hj2 => h j (by omega) (by omega))

/-- C1, amended: for a base whose layer-digest and diff-ID sequences are
prefixes of the full chunk image's — provided additionally that the base
config carries at least as many diff-IDs as the base manifest has layers,
and that the full image's history is at least as long as the base's (both
hold for well-formed OCI images; without them the Go code panics, see the
counterexample) — `removeBaseLayer` produces the chunked manifest and
config with: the layer count reduced by the base's, the layer digests equal
to the full image's past the base prefix, the diff-IDs and history equal to
the full image's with the base-length prefixes dropped, and every remaining
layer's media type set to the OCI gzip layer type. -/
theorem removeBaseLayer_subtracts_base (mkCfgDesc : Image → Descriptor) (baseref : String)
    (basemf : Manifest) (basecfg : Image) (fullmf : Manifest) (fullcfg : Image)
    (hL : (fullmf.layers.map Descriptor.digest).take basemf.layers.length
      = basemf.layers.map Descriptor.digest)
    (hD : fullcfg.rootfs.diffIDs.take basecfg.rootfs.diffIDs.length
      = basecfg.rootfs.diffIDs)
    (hBD : basemf.layers.length ≤ basecfg.rootfs.diffIDs.length)
    (hH : basecfg.history.length ≤ fullcfg.history.length) :
    ∃ mf cfg,
      removeBaseLayer mkCfgDesc baseref basemf basecfg fullmf fullcfg = .ok mf cfg ∧
      mf.layers.length = fullmf.layers.length - basemf.layers.length ∧
      mf.layers.map Descriptor.digest
        = (fullmf.layers.map Descriptor.digest).drop basemf.layers.length ∧
      cfg.rootfs.diffIDs = fullcfg.rootfs.diffIDs.drop basecfg.rootfs.diffIDs.length ∧
      cfg.history = fullcfg.history.drop basecfg.history.length ∧
      (∀ l ∈ mf.layers, l.mediaType = mediaTypeImageLayerGzip) := by
  have hfl : basemf.layers.length ≤ fullmf.layers.length := by
    have h := congrArg List.length hL
    simp only [List.length_take, List.length_map] at h
    exact inf_eq_left.mp h
  have hfd : basecfg.rootfs.diffIDs.length ≤ fullcfg.rootfs.diffIDs.length := by
    have h := congrArg List.length hD
    simp only [List.length_take] at h
    exact inf_eq_left.mp h
  have hchk : rblCheckFrom basemf basecfg fullmf fullcfg 0 basemf.layers.length = .ok () :=
    rblCheckFrom_ok basemf basecfg fullmf fullcfg basemf.layers.length 0
      (fun j _ hj2 => rblCheckIdx_ok basemf basecfg fullmf fullcfg hL hD hBD j (by omega))
  unfold removeBaseLayer
  rw [hchk]
  simp only [goSliceFrom, if_pos hfd, if_pos hH, if_pos hfl]
  refine ⟨_, _, rfl, ?_, ?_, rfl, rfl, ?_⟩
  · simp [List.length_map, List.length_drop]
  · simp only [List.map_map]
    rw [← List.map_drop]
    rfl
  · intro l hl
    simp only [List.mem_map] at hl
    obtain ⟨l1, _, hx⟩ := hl
    rw [← hx]

/-- Witness for the subtraction theorem at a one-layer base under a
two-layer full image. -/
theorem removeBaseLayer_subtracts_base_witness :
    ∃ mf cfg,
      removeBaseLayer cexMkDesc "reg/base@sha256:b" wBaseMF wBaseCfg wFullMF wFullCfg
        = .ok mf cfg ∧
      mf.layers.length = wFullMF.layers.length - wBaseMF.layers.length ∧
      mf.layers.map Descriptor.digest
        = (wFullMF.layers.map Descriptor.digest).drop wBaseMF.layers.length ∧
      cfg.rootfs.diffIDs = wFullCfg.rootfs.diffIDs.drop wBaseCfg.rootfs.diffIDs.length ∧
      cfg.history = wFullCfg.history.drop wBaseCfg.history.length ∧
      (∀ l ∈ mf.layers, l.mediaType = mediaTypeImageLayerGzip) :=
  removeBaseLayer_subtracts_base cexMkDesc "reg/base@sha256:b" wBaseMF wBaseCfg wFullMF wFullCfg
    (by decide) (by decide) (by decide) (by decide)

/-! ### Chunk fingerprint -/

theorem string_append_empty (s : String) : s ++ "" = s := by
  cases s with
  | mk d => exact congrArg String.mk (List.append_nil d)

/-- C4: the manifest document for the full and chunked image types does
not mention the serialized tests (so any change to them leaves the
fingerprint unchanged for any hash function), while for the test and
test-result types the document is exactly the tests-excluded document with
the Tests block appended after the Dockerfile and the enumerated context
files. -/
theorem chunkFingerprint_tests_inclusion :
    (∀ (hashFn : String → String) (baseref dockerfile : String) (sources : List String)
        (ty ty2 : String),
      chunkFingerprint hashFn baseref dockerfile sources ty ChunkImageType.full
        = chunkFingerprint hashFn baseref dockerfile sources ty2 ChunkImageType.full ∧
      chunkFingerprint hashFn baseref dockerfile sources ty ChunkImageType.chunked
        = chunkFingerprint hashFn baseref dockerfile sources ty2 ChunkImageType.chunked) ∧
    (∀ (hashFn : String → String) (baseref dockerfile : String) (sources : List String)
        (ty : String),
      chunkFingerprint hashFn baseref dockerfile sources ty ChunkImageType.test
        = hashFn (manifestDoc baseref dockerfile sources ty true
            ++ ("Tests:\n" ++ ty ++ "\n")) ∧
      chunkFingerprint hashFn baseref dockerfile sources ty ChunkImageType.testResult
        = hashFn (manifestDoc baseref dockerfile sources ty true
            ++ ("Tests:\n" ++ ty ++ "\n"))) := by
  constructor
  · intro hashFn baseref dockerfile sources ty ty2
    exact ⟨rfl, rfl⟩
  · intro hashFn baseref dockerfile sources ty
    constructor <;>
    · show hashFn (_ ++ ("Tests:\n" ++ ty ++ "\n")) = _
      rw [show manifestDoc baseref dockerfile sources ty true
          = (if baseref ≠ "" then "Baseref: " ++ baseref ++ "\n" else "")
            ++ ("Dockerfile: " ++ dockerfile ++ "\n")
            ++ ("Sources:\n" ++ joinWith "\n" sources ++ "\n") ++ "" from rfl]
      rw [string_append_empty]

/-! ### Registry push -/

/-- C7 counterexample: an `AlreadyExists` outcome from the manifest push,
and one from the config commit, each make `Push` return an error — they are
not treated as success. -/
theorem registryPush_alreadyExists_is_error :
    registryPush true cexPusherMfExists "reg/app:tag" "sha256:m"
      = .error "content already exists" ∧
    registryPush true cexPusherCfgCommitExists "reg/app:tag" "sha256:m"
      = .error "content already exists" :=
  ⟨rfl, rfl⟩

theorem registryPushConfigStep_ok_iff (p : PusherBehavior) :
    registryPushConfigStep p = .ok () ↔
      (p.pushConfig = .alreadyExists ∨
        (p.pushConfig = .ok ∧ p.writeConfig = .ok ∧ p.commitConfig = .ok ∧
          p.closeConfig = .ok)) := by
  rcases p with ⟨pc, wc, cc, clc, pm, wm, cm, clm⟩
  cases pc <;> cases wc <;> cases cc <;> cases clc <;>
    simp [registryPushConfigStep, respErr]

theorem registryPushManifestStep_ok_iff (p : PusherBehavior) :
    registryPushManifestStep p = .ok () ↔
      (p.pushManifest = .ok ∧ p.writeManifest = .ok ∧ p.commitManifest = .ok ∧
        p.closeManifest = .ok) := by
  rcases p with ⟨pc, wc, cc, clc, pm, wm, cm, clm⟩
  cases pm <;> cases wm <;> cases cm <;> cases clm <;>
    simp [registryPushManifestStep, respErr]

/-- C7, amended: `Push` succeeds — returning the digested reference — if
and only if the config upload finds the blob already present at the
pusher's `Push` call or goes through write, commit and close cleanly (or no
config is given), and every manifest operation succeeds outright.  In
particular `AlreadyExists` from the config-blob `Push` is treated as
success, but `AlreadyExists` from either `Commit` or from the manifest
`Push` is returned as an error. -/
theorem registryPush_success_iff (hasConfig : Bool) (p : PusherBehavior) (ref dgst : String) :
    registryPush hasConfig p ref dgst = .ok (ref ++ "@" ++ dgst) ↔
      ((hasConfig = false ∨ p.pushConfig = .alreadyExists ∨
          (p.pushConfig = .ok ∧ p.writeConfig = .ok ∧ p.commitConfig = .ok ∧
            p.closeConfig = .ok)) ∧
        p.pushManifest = .ok ∧ p.writeManifest = .ok ∧ p.commitManifest = .ok ∧
        p.closeManifest = .ok) := by
  have hc := registryPushConfigStep_ok_iff p
  have hm := registryPushManifestStep_ok_iff p
  cases hasConfig with
  | false =>
    rcases hms : registryPushManifestStep p with m | u
    · simp only [hms] at hm
      simp [registryPush, hms]
      tauto
    · cases u
      simp only [hms] at hm
      simp [registryPush, hms]
      tauto
  | true =>
    rcases hcs : registryPushConfigStep p with m | u
    · simp only [hcs] at hc
      simp [registryPush, hcs]
      tauto
    · cases u
      simp only [hcs] at hc
      rcases hms : registryPushManifestStep p with m | u2
      · simp only [hms] at hm
        simp [registryPush, hcs, hms]
        tauto
      · cases u2
        simp only [hms] at hm
        simp [registryPush, hcs, hms]
        tauto

/-! ### Test runner -/

/-- C10 counterexample: two tests, the first erroring at the executor.  The
suite does not short-circuit: the second test is still executed (its run
result is recorded) and both results are in the document. -/
theorem runTests_no_shortcircuit_on_error :
    (runTests cexExecAB cexEvalTrue cexTestsAB).1.length = 2 ∧
    (runTests cexExecAB cexEvalTrue cexTestsAB).1 =
      [⟨"a", false, some ⟨"boom", "runtime"⟩, none, none⟩,
       ⟨"b", false, none, none, some ⟨"out", "", 0⟩⟩] ∧
    (runTests cexExecAB cexEvalTrue cexTestsAB).2 = false :=
  ⟨rfl, rfl, rfl⟩

/-- The produced result's skipped field is exactly the spec's skip flag. -/
theorem specRun_skipped_eq (exec : TestSpec → Except String RunResult)
    (evalA : String → RunResult → AssertOutcome) (t : TestSpec) :
    (specRun exec evalA t).skipped = t.skip := by
  unfold specRun
  by_cases hs : t.skip
  · simp [hs]
  · simp only [hs, Bool.false_eq_true, if_false]
    rcases exec t with m | rr
    · rfl
    · dsimp only
      rcases validateAssertions evalA rr t.assertions with m | f
      · rfl
      · rcases f with _ | f <;> rfl

/-- A skipped test records neither an error nor a failure. -/
theorem specRun_skip (exec : TestSpec → Except String RunResult)
    (evalA : String → RunResult → AssertOutcome) (t : TestSpec)
    (h : t.skip = true) :
    (specRun exec evalA t).error = none ∧ (specRun exec evalA t).failure = none := by
  unfold specRun
  simp [h]

theorem runTestsGo_spec (exec : TestSpec → Except String RunResult)
    (evalA : String → RunResult → AssertOutcome) :
    ∀ (tests : List TestSpec) (succ : Bool),
      (runTestsGo exec evalA tests succ).1 = tests.map (specRun exec evalA) ∧
      (runTestsGo exec evalA tests succ).2
        = (succ && tests.all (fun t => (specRun exec evalA t).error.isNone
            && (specRun exec evalA t).failure.isNone)) := by
  intro tests
  induction tests with
  | nil => intro succ; simp [runTestsGo]
  | cons t rest ih =>
    intro succ
    unfold runTestsGo
    refine ⟨by simp [(ih _).1], ?_⟩
    rw [(ih _).2]
    rcases he : (specRun exec evalA t).error with _ | e <;>
      rcases hf : (specRun exec evalA t).failure with _ | f <;>
        simp [he, hf, Bool.and_assoc]

/-- C10, amended: `RunTests` executes every test of the suite in declared
order — neither an error nor a failure stops the loop; both merely clear
the success flag — and the returned success boolean is true iff every
non-skipped test passed (no error and no failure recorded). -/
theorem runTests_runs_all_in_order (exec : TestSpec → Except String RunResult)
    (evalA : String → RunResult → AssertOutcome) (tests : List TestSpec) :
    (runTests exec evalA tests).1 = tests.map (specRun exec evalA) ∧
    ((runTests exec evalA tests).2 = true ↔
      ∀ t ∈ tests, (specRun exec evalA t).skipped = false →
        ((specRun exec evalA t).error = none ∧ (specRun exec evalA t).failure = none)) := by
  obtain ⟨h1, h2⟩ := runTestsGo_spec exec evalA tests true
  refine ⟨h1, ?_⟩
  rw [show runTests exec evalA tests = runTestsGo exec evalA tests true from rfl, h2]
  simp only [Bool.true_and, List.all_eq_true, Bool.and_eq_true,
    Option.isNone_iff_eq_none]
  constructor
  · intro h t ht _
    exact h t ht
  · intro h t ht
    rcases hs : t.skip with _ | _
    · exact h t ht (by rw [specRun_skipped_eq, hs])
    · exact specRun_skip exec evalA t hs

/-! ### Combiner -/

/-- C3: whenever the combiner's synthesis step succeeds, the combined
config's diff-IDs are the base's followed by each picked chunk's in pick
order, and the combined manifest's layers are the base's followed by each
chunk's in the same order. -/
theorem combineImage_concat (mkCfgDesc : Image → Descriptor) (now : Nat)
    (basemf : Manifest) (basecfg : Image) (chunkMeta : List (Manifest × Image))
    (mf : Manifest) (cfg : Image)
    (h : combineImage mkCfgDesc now basemf basecfg chunkMeta = .ok (mf, cfg)) :
    cfg.rootfs.diffIDs
      = basecfg.rootfs.diffIDs
        ++ (chunkMeta.map (fun p => p.2.rootfs.diffIDs)).flatten ∧
    mf.layers = basemf.layers ++ (chunkMeta.map (fun p => p.1.layers)).flatten := by
  unfold combineImage at h
  dsimp only at h
  rcases he : mergeEnvSrc basecfg.config.env
      (((basecfg :: chunkMeta.map Prod.snd)).map (fun c => c.config.env)) with m | env
  · rw [he] at h; exact absurd h (by simp)
  · rw [he] at h
    simp only [Except.ok.injEq, Prod.mk.injEq] at h
    obtain ⟨hmf, hcfg⟩ := h
    rw [← hmf, ← hcfg]
    constructor <;>
    · simp only [List.map_cons, List.flatten_cons, List.map_map]
      rfl

/-- Witness: one base and one chunk with empty env lists. -/
theorem combineImage_concat_witness :
    ∃ mf cfg,
      combineImage cexMkDesc 0 wBaseMF wBaseCfg [(wChunkMF, wChunkCfg)] = .ok (mf, cfg) ∧
      cfg.rootfs.diffIDs
        = wBaseCfg.rootfs.diffIDs
          ++ ([(wChunkMF, wChunkCfg)].map (fun p => p.2.rootfs.diffIDs)).flatten ∧
      mf.layers
        = wBaseMF.layers ++ ([(wChunkMF, wChunkCfg)].map (fun p => p.1.layers)).flatten := by
  refine ⟨_, _, rfl, ?_⟩
  exact combineImage_concat cexMkDesc 0 wBaseMF wBaseCfg [(wChunkMF, wChunkCfg)] _ _ rfl

theorem tmpdest_ne (dest x : String) : dest ++ ":temp" ++ x ≠ dest := by
  intro h
  have hl := congrArg String.length h
  rw [String.length_append, String.length_append] at hl
  have h5 : (":temp").length = 5 := rfl
  omega

theorem runChunkTests_none_iff (rt : String → List String → Bool) (dest : String)
    (cs : List ProjectChunkModel) :
    runChunkTests rt dest cs = none ↔
      ∀ c ∈ cs, ¬c.tests.isEmpty → rt dest c.tests = true := by
  induction cs with
  | nil => simp [runChunkTests]
  | cons c rest ih =>
    unfold runChunkTests
    by_cases hc : c.tests.isEmpty
    · simp only [hc, if_true, ih]
      constructor
      · intro h c2 hc2
        rcases List.mem_cons.mp hc2 with rfl | h2
        · intro hne; exact absurd hc hne
        · exact h c2 h2
      · intro h c2 hc2
        exact h c2 (List.mem_cons_of_mem _ hc2)
    · by_cases hrt : rt dest c.tests
      · simp only [hc, Bool.false_eq_true, if_false, hrt, if_true, ih]
        constructor
        · intro h c2 hc2
          rcases List.mem_cons.mp hc2 with rfl | h2
          · intro _; exact hrt
          · exact h c2 h2
        · intro h c2 hc2
          exact h c2 (List.mem_cons_of_mem _ hc2)
      · simp only [hc, Bool.false_eq_true, if_false, hrt]
        constructor
        · intro h; exact absurd h (by simp)
        · intro h
          exact absurd (h c (List.mem_cons_self c rest) hc) hrt

/-- C6: with tests requested and not already a temp build, `Combine` first
performs the complete combination at `<dest>:temp<unix-epoch>` and runs the
picked chunks' tests against that temporary image; the real tag is written
only afterwards.  Concretely: (1) whenever the operation fails, no manifest
is pushed to `dest` beyond what the initial registry state had; (2)
whenever it succeeds, the pushes are exactly config and manifest at the
temporary tag followed by config and manifest at `dest`, and every picked
chunk with tests passed its tests against the temporary image. -/
theorem combine_temp_protects_dest (cx : CombineCtx) (chunks : List String)
    (dest : String) (st : List PushEvent) :
    (∀ st2 e, combine cx chunks dest true false st = (st2, some e) →
      (PushEvent.manifest dest ∈ st2 ↔ PushEvent.manifest dest ∈ st)) ∧
    (∀ st2, combine cx chunks dest true false st = (st2, none) →
      st2 = st ++ [PushEvent.config (dest ++ ":temp" ++ toString cx.now),
        PushEvent.manifest (dest ++ ":temp" ++ toString cx.now),
        PushEvent.config dest, PushEvent.manifest dest] ∧
      ∃ cs mfc, combinePlan cx chunks = .ok (cs, mfc) ∧
        ∀ c ∈ cs, ¬c.tests.isEmpty →
          cx.runTestsAt (dest ++ ":temp" ++ toString cx.now) c.tests = true) := by
  rcases hp : combinePlan cx chunks with e | ⟨cs, mfc⟩
  · constructor
    · intro st2 e2 h
      simp only [combine, combineBody, hp, Bool.and_self, if_true] at h
      have h1 : st2 = st := (congrArg Prod.fst h).symm
      rw [h1]
    · intro st2 h
      simp only [combine, combineBody, hp, Bool.and_self, if_true] at h
      exact absurd (congrArg Prod.snd h) (by simp)
  · rcases hr : runChunkTests cx.runTestsAt (dest ++ ":temp" ++ toString cx.now) cs
        with _ | e2
    · constructor
      · intro st2 e3 h
        simp only [combine, combineBody, hp, hr, Bool.and_self, if_true] at h
        exact absurd (congrArg Prod.snd h) (by simp)
      · intro st2 h
        simp only [combine, combineBody, hp, hr, Bool.and_self, if_true] at h
        have hst : st2 = st ++ [PushEvent.config (dest ++ ":temp" ++ toString cx.now),
            PushEvent.manifest (dest ++ ":temp" ++ toString cx.now)]
            ++ [PushEvent.config dest, PushEvent.manifest dest] :=
          (congrArg Prod.fst h).symm
        refine ⟨by rw [hst, List.append_assoc]; rfl, cs, mfc, rfl, ?_⟩
        exact (runChunkTests_none_iff _ _ _).mp hr
    · constructor
      · intro st2 e3 h
        simp only [combine, combineBody, hp, hr, Bool.and_self, if_true] at h
        have hst : st2 = st ++ [PushEvent.config (dest ++ ":temp" ++ toString cx.now),
            PushEvent.manifest (dest ++ ":temp" ++ toString cx.now)] :=
          (congrArg Prod.fst h).symm
        rw [hst]
        simp only [List.mem_append, List.mem_cons, List.not_mem_nil, or_false]
        constructor
        · rintro (hin | hin | hin)
          · exact hin
          · exact absurd hin (by simp)
          · exact absurd hin (by
              simp only [PushEvent.manifest.injEq]
              exact Ne.symm (tmpdest_ne dest (toString cx.now)))
        · intro hin; exact Or.inl hin
      · intro st2 h
        simp only [combine, combineBody, hp, hr, Bool.and_self, if_true] at h
        exact absurd (congrArg Prod.snd h) (by simp)

/-- Witness: a one-chunk project whose test passes; the combined image is
pushed first at the temporary tag, then at the destination. -/
theorem combine_temp_protects_dest_witness :
    [PushEvent.config ("reg/app" ++ ":temp" ++ toString wCombineCtx.now),
      PushEvent.manifest ("reg/app" ++ ":temp" ++ toString wCombineCtx.now),
      PushEvent.config "reg/app", PushEvent.manifest "reg/app"]
      = ([] : List PushEvent) ++ [PushEvent.config ("reg/app" ++ ":temp" ++ toString wCombineCtx.now),
        PushEvent.manifest ("reg/app" ++ ":temp" ++ toString wCombineCtx.now),
        PushEvent.config "reg/app", PushEvent.manifest "reg/app"] ∧
    ∃ cs mfc, combinePlan wCombineCtx ["c1"] = .ok (cs, mfc) ∧
      ∀ c ∈ cs, ¬c.tests.isEmpty →
        wCombineCtx.runTestsAt ("reg/app" ++ ":temp" ++ toString wCombineCtx.now) c.tests
          = true :=
  (combine_temp_protects_dest wCombineCtx ["c1"] "reg/app" []).2 _ rfl

/-! ### Policy-based env merge -/

theorem buildEnvEntries_mem (f : String → Except String String) :
    ∀ (names out : List String), buildEnvEntries f names = .ok out →
      ∀ n ∈ names, ∃ v, f n = .ok v ∧ (n ++ "=" ++ v) ∈ out := by
  intro names
  induction names with
  | nil => intro out _ n hn; exact absurd hn (by simp)
  | cons n0 rest ih =>
    intro out h n hn
    unfold buildEnvEntries at h
    rcases hf : f n0 with m | v0
    · rw [hf] at h; exact absurd h (by simp)
    · rw [hf] at h
      rcases hb : buildEnvEntries f rest with m | out0
      · rw [hb] at h; exact absurd h (by simp)
      · rw [hb] at h
        simp only [Except.ok.injEq] at h
        rcases List.mem_cons.mp hn with rfl | hn2
        · exact ⟨v0, hf, by rw [← h]; exact List.mem_cons_self _ _⟩
        · obtain ⟨v, hv1, hv2⟩ := ih out0 hb n hn2
          exact ⟨v, hv1, by rw [← h]; exact List.mem_cons_of_mem _ hv2⟩

/-- C5: in the spec-modelled three-argument `mergeEnv`, a name absent from
the policy list gets the default merge action — its output entry is all
contributions for that name, base first then each chunk in order, joined
with a colon, without deduplication; and the use-last policy makes the last
chunk that sets the name win, as in the spec's concrete example. -/
theorem mergeEnvPolicy_merge_default_and_useLast :
    (∀ (b : List String) (o : List (List String)) (vars : List (String × String))
        (n : String) (out : List String),
      mergeEnvPolicy b o vars = .ok out →
      vars.find? (fun v => v.1 = n) = none →
      n ∈ envNames b o →
      (n ++ "=" ++ joinWith ":" (envContribs b o n)) ∈ out) ∧
    mergeEnvPolicy ["PATH=first:second:third:common"] [["PATH=fourth:fifth:common"]]
      [("PATH", "use-last")] = .ok ["PATH=fourth:fifth:common"] := by
  constructor
  · intro b o vars n out h hv hn
    unfold mergeEnvPolicy at h
    rcases hw : checkEnvWellformed (b ++ o.flatten) with m | u
    · rw [hw] at h; exact absurd h (by simp)
    · rw [hw] at h
      obtain ⟨v, hv1, hv2⟩ := buildEnvEntries_mem _ _ _ h n hn
      have hact : actionFor vars n = "merge" := by
        unfold actionFor; rw [hv]
      rw [hact] at hv1
      unfold applyEnvAction at hv1
      rw [if_pos rfl] at hv1
      simp only [Except.ok.injEq] at hv1
      rw [← hv1] at hv2
      exact hv2
  · rfl

/-- Witness for the default-merge conjunct: one base entry and one chunk
entry for the same name, no policy. -/
theorem mergeEnvPolicy_merge_default_witness :
    ("A" ++ "=" ++ joinWith ":" (envContribs ["A=1"] [["A=2"]] "A"))
      ∈ (["A=1:2"] : List String) :=
  mergeEnvPolicy_merge_default_and_useLast.1 ["A=1"] [["A=2"]] [] "A" ["A=1:2"]
    rfl rfl (by decide)

/-! ### Combination resolution: state lemmas -/

theorem lookupSet_cons (k : String) (v : Finset String) (rest : RState) (n : String) :
    lookupSet ((k, v) :: rest) n = if k = n then v else lookupSet rest n := by
  by_cases hk : k = n
  · unfold lookupSet
    rw [List.find?_cons_of_pos _ (by simpa using hk)]
    simp [hk]
  · unfold lookupSet
    rw [List.find?_cons_of_neg _ (by simpa using hk)]
    simp [hk]

theorem updateSet_cons (k : String) (v : Finset String) (rest : RState) (n : String)
    (s : Finset String) :
    updateSet ((k, v) :: rest) n s
      = (if k = n then (k, s) else (k, v)) :: updateSet rest n s := by
  unfold updateSet
  by_cases hk : k = n <;> simp [hk]

theorem updateSet_keys (n : String) (s : Finset String) :
    ∀ st : RState, (updateSet st n s).map Prod.fst = st.map Prod.fst := by
  intro st
  induction st with
  | nil => rfl
  | cons e rest ih =>
    rcases e with ⟨k, v⟩
    rw [updateSet_cons]
    by_cases hk : k = n <;> simp [hk, ih]

theorem lookupSet_not_mem (n : String) :
    ∀ st : RState, n ∉ st.map Prod.fst → lookupSet st n = ∅ := by
  intro st
  induction st with
  | nil => intro _; rfl
  | cons e rest ih =>
    rcases e with ⟨k, v⟩
    intro h
    simp only [List.map_cons, List.mem_cons, not_or] at h
    rw [lookupSet_cons, if_neg (fun he => h.1 he.symm)]
    exact ih h.2

theorem lookupSet_updateSet_self (n : String) (s : Finset String) :
    ∀ st : RState, n ∈ st.map Prod.fst → lookupSet (updateSet st n s) n = s := by
  intro st
  induction st with
  | nil => intro h; exact absurd h (by simp)
  | cons e rest ih =>
    rcases e with ⟨k, v⟩
    intro h
    rw [updateSet_cons]
    by_cases hk : k = n
    · rw [if_pos hk, lookupSet_cons, if_pos hk]
    · rw [if_neg hk, lookupSet_cons, if_neg hk]
      apply ih
      simp only [List.map_cons, List.mem_cons] at h
      rcases h with h | h
      · exact absurd h.symm hk
      · exact h

theorem lookupSet_updateSet_ne (n m : String) (s : Finset String) (hne : m ≠ n) :
    ∀ st : RState, lookupSet (updateSet st n s) m = lookupSet st m := by
  intro st
  induction st with
  | nil => rfl
  | cons e rest ih =>
    rcases e with ⟨k, v⟩
    rw [updateSet_cons]
    by_cases hk : k = n
    · rw [if_pos hk, lookupSet_cons, lookupSet_cons,
        if_neg (fun hm => hne (hm.symm.trans hk)),
        if_neg (fun hm => hne (hm.symm.trans hk))]
      exact ih
    · rw [if_neg hk, lookupSet_cons, lookupSet_cons]
      by_cases hkm : k = m <;> simp [hkm, ih]

theorem lookupSet_mem_eq (n : String) (s : Finset String) :
    ∀ st : RState, (st.map Prod.fst).Nodup → (n, s) ∈ st → lookupSet st n = s := by
  intro st
  induction st with
  | nil => intro _ h; exact absurd h (by simp)
  | cons e rest ih =>
    rcases e with ⟨k, v⟩
    intro hnd h
    simp only [List.map_cons, List.nodup_cons] at hnd
    rcases List.mem_cons.mp h with h1 | h1
    · have hk : n = k := congrArg Prod.fst h1
      have hv : s = v := congrArg Prod.snd h1
      rw [lookupSet_cons, if_pos hk.symm, hv]
    · have hk : k ≠ n := by
        intro hkn
        apply hnd.1
        rw [hkn]
        exact List.mem_map.mpr ⟨(n, s), h1, rfl⟩
      rw [lookupSet_cons, if_neg hk]
      exact ih hnd.2 h1

theorem updateSet_not_mem (n : String) (s : Finset String) :
    ∀ st : RState, n ∉ st.map Prod.fst → updateSet st n s = st := by
  intro st
  induction st with
  | nil => intro _; rfl
  | cons e rest ih =>
    rcases e with ⟨k, v⟩
    intro h
    simp only [List.map_cons, List.mem_cons, not_or] at h
    rw [updateSet_cons, if_neg (fun he => h.1 he.symm), ih h.2]

theorem updateSet_self_eq (n : String) :
    ∀ st : RState, (st.map Prod.fst).Nodup → updateSet st n (lookupSet st n) = st := by
  intro st
  induction st with
  | nil => intro _; rfl
  | cons e rest ih =>
    rcases e with ⟨k, v⟩
    intro hnd
    simp only [List.map_cons, List.nodup_cons] at hnd
    rw [updateSet_cons]
    by_cases hk : k = n
    · rw [if_pos hk, lookupSet_cons, if_pos hk]
      rw [show updateSet rest n v = rest from
        updateSet_not_mem n v rest (fun hm => hnd.1 (hk ▸ hm))]
    · rw [if_neg hk, lookupSet_cons, if_neg hk, ih hnd.2]

theorem mem_unionRefs_aux (st : RState) (x : String) :
    ∀ (rs : List String) (acc : Finset String),
      (x ∈ rs.foldl (fun acc r => acc ∪ lookupSet st r) acc
        ↔ x ∈ acc ∨ ∃ r ∈ rs, x ∈ lookupSet st r) := by
  intro rs
  induction rs with
  | nil => intro acc; simp
  | cons r rest ih =>
    intro acc
    simp only [List.foldl_cons, ih, Finset.mem_union, List.mem_cons]
    constructor
    · rintro ((h | h) | ⟨r2, h2, h3⟩)
      · exact Or.inl h
      · exact Or.inr ⟨r, Or.inl rfl, h⟩
      · exact Or.inr ⟨r2, Or.inr h2, h3⟩
    · rintro (h | ⟨r2, (rfl | h2), h3⟩)
      · exact Or.inl (Or.inl h)
      · exact Or.inl (Or.inr h3)
      · exact Or.inr ⟨r2, h2, h3⟩

theorem mem_unionRefs (st : RState) (rs : List String) (x : String) :
    x ∈ unionRefs st rs ↔ ∃ r ∈ rs, x ∈ lookupSet st r := by
  unfold unionRefs
  rw [mem_unionRefs_aux]
  simp

theorem lookupSet_subset_unionRefs (st : RState) {rs : List String} {r : String}
    (hr : r ∈ rs) : lookupSet st r ⊆ unionRefs st rs := by
  intro x hx
  exact (mem_unionRefs st rs x).mpr ⟨r, hr, hx⟩

theorem initState_keys (ipt : List ChunkCombination) :
    (initState ipt).map Prod.fst = namesOf ipt := by
  unfold initState namesOf
  rw [List.map_map]
  rfl

theorem refsIdx_keys (ipt : List ChunkCombination) :
    (refsIdx ipt).map Prod.fst = namesOf ipt := by
  unfold refsIdx namesOf
  rw [List.map_map]
  rfl

theorem lookupSet_initState (n : String) :
    ∀ ipt : List ChunkCombination, lookupSet (initState ipt) n = ownChunks ipt n := by
  intro ipt
  induction ipt with
  | nil => rfl
  | cons c rest ih =>
    show lookupSet ((c.name, c.chunks.toFinset) :: initState rest) n = _
    rw [lookupSet_cons]
    by_cases hc : c.name = n
    · rw [if_pos hc]
      unfold ownChunks
      rw [List.find?_cons_of_pos _ (by simpa using hc)]
      rfl
    · rw [if_neg hc, ih]
      unfold ownChunks
      rw [List.find?_cons_of_neg _ (by simpa using hc)]

theorem refsIdx_mem (ipt : List ChunkCombination) (n : String) (rs : List String) :
    (namesOf ipt).Nodup → (n, rs) ∈ refsIdx ipt → rs = refsOfName ipt n := by
  induction ipt with
  | nil => intro _ h; exact absurd h (by simp [refsIdx])
  | cons c rest ih =>
    intro hnd h
    simp only [namesOf, List.map_cons, List.nodup_cons] at hnd
    rcases List.mem_cons.mp h with h1 | h1
    · have hn : n = c.name := congrArg Prod.fst h1
      have hr : rs = c.ref := congrArg Prod.snd h1
      unfold refsOfName
      rw [List.find?_cons_of_pos _ (by simpa using hn.symm)]
      exact hr
    · have hmem : n ∈ namesOf rest := by
        rw [← refsIdx_keys rest]
        exact List.mem_map_of_mem Prod.fst h1
      have hc : ¬c.name = n := fun he => hnd.1 (he ▸ hmem)
      unfold refsOfName
      rw [List.find?_cons_of_neg _ (by simpa using hc)]
      exact ih hnd.2 h1

theorem mem_refsIdx_of_name (ipt : List ChunkCombination) (n : String) :
    n ∈ namesOf ipt → (n, refsOfName ipt n) ∈ refsIdx ipt := by
  induction ipt with
  | nil => intro h; exact absurd h (by simp [namesOf])
  | cons c rest ih =>
    intro h
    by_cases hc : c.name = n
    · unfold refsOfName
      rw [List.find?_cons_of_pos _ (by simpa using hc)]
      show (n, c.ref) ∈ (c.name, c.ref) :: refsIdx rest
      rw [← hc]
      exact List.mem_cons_self _ _
    · have hmem : n ∈ namesOf rest := by
        rcases List.mem_cons.mp h with h1 | h1
        · exact absurd h1.symm hc
        · exact h1
      unfold refsOfName
      rw [List.find?_cons_of_neg _ (by simpa using hc)]
      exact List.mem_cons_of_mem _ (ih hmem)

theorem refsOfName_not_mem (ipt : List ChunkCombination) (n : String)
    (h : n ∉ namesOf ipt) : refsOfName ipt n = [] := by
  unfold refsOfName
  rw [List.find?_eq_none.mpr]
  · rfl
  · intro c hc
    simp only [decide_eq_true_eq]
    exact fun he => h (List.mem_map.mpr ⟨c, hc, he⟩)

theorem ownChunks_not_mem (ipt : List ChunkCombination) (n : String)
    (h : n ∉ namesOf ipt) : ownChunks ipt n = ∅ := by
  unfold ownChunks
  rw [List.find?_eq_none.mpr]
  · rfl
  · intro c hc
    simp only [decide_eq_true_eq]
    exact fun he => h (List.mem_map.mpr ⟨c, hc, he⟩)

theorem refEdge_names (ipt : List ChunkCombination)
    (href : ∀ c ∈ ipt, ∀ r ∈ c.ref, r ∈ namesOf ipt)
    (a b : String) (h : RefEdge ipt a b) : a ∈ namesOf ipt ∧ b ∈ namesOf ipt := by
  unfold RefEdge at h
  constructor
  · by_contra ha
    rw [refsOfName_not_mem ipt a ha] at h
    exact absurd h (by simp)
  · unfold refsOfName at h
    rcases hf : ipt.find? (fun c => c.name = a) with _ | c
    · rw [hf] at h
      exact absurd h (by simp)
    · rw [hf] at h
      exact href c (List.mem_of_find?_eq_some hf) b h

/-! ### Combination resolution: pass lemmas -/

theorem passStep_keys (acc : RState × Bool) (e : String × List String) :
    ((passStep acc e).1).map Prod.fst = acc.1.map Prod.fst := by
  unfold passStep
  exact updateSet_keys _ _ _

theorem passStep_changed (acc : RState × Bool) (e : String × List String)
    (h : acc.2 = true) : (passStep acc e).2 = true := by
  unfold passStep
  dsimp only
  by_cases hc : unionRefs acc.1 e.2 ⊆ lookupSet acc.1 e.1 <;> simp [hc, h]

theorem passStep_lookup_mono (acc : RState × Bool) (e : String × List String) (n : String) :
    lookupSet acc.1 n ⊆ lookupSet (passStep acc e).1 n := by
  unfold passStep
  dsimp only
  by_cases hmem : n ∈ acc.1.map Prod.fst
  · by_cases he : e.1 = n
    · rw [he, lookupSet_updateSet_self n _ acc.1 hmem]
      exact Finset.subset_union_left
    · rw [lookupSet_updateSet_ne e.1 n _ (fun hh => he hh.symm) acc.1]
  · rw [lookupSet_not_mem n acc.1 hmem]
    exact Finset.empty_subset _

theorem foldl_keys : ∀ (combos : List (String × List String)) (acc : RState × Bool),
    ((combos.foldl passStep acc).1).map Prod.fst = acc.1.map Prod.fst := by
  intro combos
  induction combos with
  | nil => intro acc; rfl
  | cons e rest ih =>
    intro acc
    rw [show (e :: rest).foldl passStep acc = rest.foldl passStep (passStep acc e) from rfl,
      ih, passStep_keys]

theorem foldl_changed : ∀ (combos : List (String × List String)) (acc : RState × Bool),
    acc.2 = true → (combos.foldl passStep acc).2 = true := by
  intro combos
  induction combos with
  | nil => intro acc h; exact h
  | cons e rest ih =>
    intro acc h
    exact ih (passStep acc e) (passStep_changed acc e h)

theorem foldl_lookup_mono (n : String) :
    ∀ (combos : List (String × List String)) (acc : RState × Bool),
    lookupSet acc.1 n ⊆ lookupSet ((combos.foldl passStep acc).1) n := by
  intro combos
  induction combos with
  | nil => intro acc; exact fun x h => h
  | cons e rest ih =>
    intro acc
    exact subset_trans (passStep_lookup_mono acc e n) (ih (passStep acc e))

theorem foldl_other_keys (n : String) :
    ∀ (combos : List (String × List String)) (acc : RState × Bool),
    n ∉ combos.map Prod.fst →
    lookupSet ((combos.foldl passStep acc).1) n = lookupSet acc.1 n := by
  intro combos
  induction combos with
  | nil => intro acc _; rfl
  | cons e rest ih =>
    intro acc h
    simp only [List.map_cons, List.mem_cons, not_or] at h
    rw [show (e :: rest).foldl passStep acc = rest.foldl passStep (passStep acc e) from rfl,
      ih (passStep acc e) h.2]
    unfold passStep
    dsimp only
    exact lookupSet_updateSet_ne e.1 n _ h.1 acc.1

theorem foldl_pull :
    ∀ (combos : List (String × List String)) (acc : RState × Bool),
    (combos.map Prod.fst).Nodup →
    ∀ n rs, (n, rs) ∈ combos → n ∈ acc.1.map Prod.fst →
    ∀ r ∈ rs, lookupSet acc.1 r ⊆ lookupSet ((combos.foldl passStep acc).1) n := by
  intro combos
  induction combos with
  | nil => intro acc _ n rs h; exact absurd h (by simp)
  | cons e rest ih =>
    intro acc hnd n rs hmem hkey r hr
    simp only [List.map_cons, List.nodup_cons] at hnd
    rcases List.mem_cons.mp hmem with h1 | h1
    · have hn : n = e.1 := congrArg Prod.fst h1
      have hrs : rs = e.2 := congrArg Prod.snd h1
      have hstep : lookupSet (passStep acc e).1 n
          = lookupSet acc.1 e.1 ∪ unionRefs acc.1 e.2 := by
        unfold passStep
        dsimp only
        rw [hn]
        exact lookupSet_updateSet_self e.1 _ acc.1 (hn ▸ hkey)
      have hrest : lookupSet ((rest.foldl passStep (passStep acc e))).1 n
          = lookupSet (passStep acc e).1 n :=
        foldl_other_keys n rest (passStep acc e) (hn ▸ hnd.1)
      rw [show (e :: rest).foldl passStep acc = rest.foldl passStep (passStep acc e) from rfl,
        hrest, hstep]
      exact subset_trans (lookupSet_subset_unionRefs acc.1 (hrs ▸ hr))
        Finset.subset_union_right
    · have hkey2 : n ∈ (passStep acc e).1.map Prod.fst := by
        rw [passStep_keys]; exact hkey
      exact subset_trans (passStep_lookup_mono acc e r)
        (ih (passStep acc e) hnd.2 n rs h1 hkey2 r hr)

theorem passStep_sound (ipt : List ChunkCombination) (hnd : (namesOf ipt).Nodup)
    (acc : RState × Bool) (e : String × List String) (he : e ∈ refsIdx ipt)
    (hs : SoundState ipt acc.1) : SoundState ipt (passStep acc e).1 := by
  have hrs : e.2 = refsOfName ipt e.1 := refsIdx_mem ipt e.1 e.2 hnd (by
    rcases e with ⟨e1, e2⟩; exact he)
  intro n x hx
  unfold passStep at hx
  dsimp only at hx
  by_cases hkey : n ∈ acc.1.map Prod.fst
  · by_cases hne : e.1 = n
    · rw [hne, lookupSet_updateSet_self n _ acc.1 hkey] at hx
      rcases Finset.mem_union.mp hx with hx | hx
      · exact hs n x (by rw [← hne] at hx ⊢; exact hx)
      · rcases (mem_unionRefs acc.1 e.2 x).mp hx with ⟨r, hr, hxr⟩
        obtain ⟨m, hm1, hm2⟩ := hs r x hxr
        refine ⟨m, Relation.ReflTransGen.head ?_ hm1, hm2⟩
        show RefEdge ipt n r
        unfold RefEdge
        rw [← hne, ← hrs]
        exact hr
    · rw [lookupSet_updateSet_ne e.1 n _ (fun hh => hne hh.symm) acc.1] at hx
      exact hs n x hx
  · rw [lookupSet_not_mem n _ (by rw [updateSet_keys]; exact hkey)] at hx
    exact absurd hx (by simp)

theorem foldl_sound (ipt : List ChunkCombination) (hnd : (namesOf ipt).Nodup) :
    ∀ (combos : List (String × List String)) (acc : RState × Bool),
    (∀ e ∈ combos, e ∈ refsIdx ipt) →
    SoundState ipt acc.1 → SoundState ipt ((combos.foldl passStep acc).1) := by
  intro combos
  induction combos with
  | nil => intro acc _ hs; exact hs
  | cons e rest ih =>
    intro acc hmem hs
    exact ih (passStep acc e) (fun e2 he2 => hmem e2 (List.mem_cons_of_mem _ he2))
      (passStep_sound ipt hnd acc e (hmem e (List.mem_cons_self _ _)) hs)

theorem foldl_nochange :
    ∀ (combos : List (String × List String)) (st : RState),
    (st.map Prod.fst).Nodup →
    (combos.foldl passStep (st, false)).2 = false →
    (combos.foldl passStep (st, false)).1 = st ∧
      ∀ e ∈ combos, unionRefs st e.2 ⊆ lookupSet st e.1 := by
  intro combos
  induction combos with
  | nil => intro st _ _; exact ⟨rfl, by simp⟩
  | cons e rest ih =>
    intro st hnd h
    by_cases hc : unionRefs st e.2 ⊆ lookupSet st e.1
    · have hupd : updateSet st e.1 (lookupSet st e.1 ∪ unionRefs st e.2) = st := by
        rw [Finset.union_eq_left.mpr hc]
        exact updateSet_self_eq e.1 st hnd
      have hstep : passStep (st, false) e = (st, false) := by
        unfold passStep
        dsimp only
        rw [if_pos hc, hupd]
      rw [show (e :: rest).foldl passStep (st, false)
          = rest.foldl passStep (passStep (st, false) e) from rfl, hstep] at h ⊢
      obtain ⟨h1, h2⟩ := ih st hnd h
      refine ⟨h1, ?_⟩
      intro e2 he2
      rcases List.mem_cons.mp he2 with rfl | hh
      · exact hc
      · exact h2 _ hh
    · exfalso
      have hstep2 : (passStep (st, false) e).2 = true := by
        unfold passStep
        dsimp only
        rw [if_neg hc]
      have hch : ((e :: rest).foldl passStep (st, false)).2 = true := by
        rw [show (e :: rest).foldl passStep (st, false)
            = rest.foldl passStep (passStep (st, false) e) from rfl]
        exact foldl_changed rest _ hstep2
      rw [hch] at h
      exact absurd h (by simp)

theorem foldl_nochange_of_fixed :
    ∀ (combos : List (String × List String)) (st : RState),
    (st.map Prod.fst).Nodup →
    (∀ e ∈ combos, unionRefs st e.2 ⊆ lookupSet st e.1) →
    combos.foldl passStep (st, false) = (st, false) := by
  intro combos
  induction combos with
  | nil => intro st _ _; rfl
  | cons e rest ih =>
    intro st hnd hfix
    have hc := hfix e (List.mem_cons_self _ _)
    have hupd : updateSet st e.1 (lookupSet st e.1 ∪ unionRefs st e.2) = st := by
      rw [Finset.union_eq_left.mpr hc]
      exact updateSet_self_eq e.1 st hnd
    have hstep : passStep (st, false) e = (st, false) := by
      unfold passStep
      dsimp only
      rw [if_pos hc, hupd]
    rw [show (e :: rest).foldl passStep (st, false)
        = rest.foldl passStep (passStep (st, false) e) from rfl, hstep]
    exact ih st hnd (fun e2 he2 => hfix e2 (List.mem_cons_of_mem _ he2))

theorem passIter_keys (combos : List (String × List String)) :
    ∀ (k : Nat) (st : RState),
    (passIter combos k st).map Prod.fst = st.map Prod.fst := by
  intro k
  induction k with
  | zero => intro st; rfl
  | succ k ih =>
    intro st
    show ((combos.foldl passStep (passIter combos k st, false)).1).map Prod.fst = _
    rw [foldl_keys, ih]

theorem passIter_lookup_mono (combos : List (String × List String)) (n : String) :
    ∀ (k : Nat) (st : RState),
    lookupSet st n ⊆ lookupSet (passIter combos k st) n := by
  intro k
  induction k with
  | zero => intro st; exact fun x h => h
  | succ k ih =>
    intro st
    exact subset_trans (ih st) (foldl_lookup_mono n combos (passIter combos k st, false))

theorem passIter_sound (ipt : List ChunkCombination) (hnd : (namesOf ipt).Nodup) :
    ∀ (k : Nat) (st : RState), SoundState ipt st →
    SoundState ipt (passIter (refsIdx ipt) k st) := by
  intro k
  induction k with
  | zero => intro st hs; exact hs
  | succ k ih =>
    intro st hs
    exact foldl_sound ipt hnd (refsIdx ipt) (passIter (refsIdx ipt) k st, false)
      (fun e he => he) (ih st hs)

theorem passIter_succ_comm (combos : List (String × List String)) :
    ∀ (k : Nat) (st : RState),
    passIter combos (k + 1) st = passIter combos k ((onePass combos st).1) := by
  intro k
  induction k with
  | zero => intro st; rfl
  | succ k ih =>
    intro st
    show (onePass combos (passIter combos (k + 1) st)).1 = _
    rw [ih st]
    rfl

/-! ### Combination resolution: bounded reachability -/

theorem refEdge_src (ipt : List ChunkCombination) (a b : String) (h : RefEdge ipt a b) :
    a ∈ namesOf ipt := by
  unfold RefEdge at h
  by_contra ha
  rw [refsOfName_not_mem ipt a ha] at h
  exact absurd h (by simp)

theorem nearNodes_self (ipt : List ChunkCombination) (k : Nat) (n : String) :
    n ∈ nearNodes ipt k n := by
  cases k with
  | zero => exact Finset.mem_singleton_self n
  | succ k => exact Finset.mem_insert_self n _

theorem nearNodes_mono (ipt : List ChunkCombination) :
    ∀ (k : Nat) (n : String), nearNodes ipt k n ⊆ nearNodes ipt (k + 1) n := by
  intro k
  induction k with
  | zero =>
    intro n x hx
    rw [Finset.mem_singleton.mp hx]
    exact nearNodes_self ipt 1 n
  | succ k ih =>
    intro n x hx
    rcases Finset.mem_insert.mp hx with rfl | hx
    · exact Finset.mem_insert_self x _
    · rcases Finset.mem_biUnion.mp hx with ⟨r, hr, hxr⟩
      exact Finset.mem_insert_of_mem (Finset.mem_biUnion.mpr ⟨r, hr, ih r hxr⟩)

theorem nearNodes_edge_append (ipt : List ChunkCombination) :
    ∀ (k : Nat) (m0 m n : String), m0 ∈ nearNodes ipt k n → m ∈ refsOfName ipt m0 →
    m ∈ nearNodes ipt (k + 1) n := by
  intro k
  induction k with
  | zero =>
    intro m0 m n h0 hm
    rw [Finset.mem_singleton.mp h0] at hm
    exact Finset.mem_insert_of_mem
      (Finset.mem_biUnion.mpr ⟨m, List.mem_toFinset.mpr hm, nearNodes_self ipt 0 m⟩)
  | succ k ih =>
    intro m0 m n h0 hm
    rcases Finset.mem_insert.mp h0 with rfl | h0
    · exact Finset.mem_insert_of_mem
        (Finset.mem_biUnion.mpr ⟨m, List.mem_toFinset.mpr hm, nearNodes_self ipt (k + 1) m⟩)
    · rcases Finset.mem_biUnion.mp h0 with ⟨r, hr, h0r⟩
      exact Finset.mem_insert_of_mem
        (Finset.mem_biUnion.mpr ⟨r, hr, ih m0 m r h0r hm⟩)

theorem farReach_subset_nearNodes (ipt : List ChunkCombination) :
    ∀ (k : Nat) (n : String), farReach ipt n k ⊆ nearNodes ipt k n := by
  intro k
  induction k with
  | zero => intro n; exact Finset.Subset.refl _
  | succ k ih =>
    intro n x hx
    rcases Finset.mem_union.mp hx with hx | hx
    · exact nearNodes_mono ipt k n (ih n hx)
    · rcases Finset.mem_biUnion.mp hx with ⟨m0, hm0, hxm⟩
      exact nearNodes_edge_append ipt k m0 x n (ih n hm0) (List.mem_toFinset.mp hxm)

theorem farReach_mono (ipt : List ChunkCombination) (n : String) (k : Nat) :
    farReach ipt n k ⊆ farReach ipt n (k + 1) :=
  Finset.subset_union_left

theorem farReach_le_mono (ipt : List ChunkCombination) (n : String) (j : Nat) :
    ∀ d, farReach ipt n j ⊆ farReach ipt n (j + d) := by
  intro d
  induction d with
  | zero => exact Finset.Subset.refl _
  | succ d ih => exact subset_trans ih (farReach_mono ipt n (j + d))

theorem farReach_stab (ipt : List ChunkCombination) (n : String) (k : Nat)
    (h : farReach ipt n (k + 1) = farReach ipt n k) :
    ∀ d, farReach ipt n (k + d) = farReach ipt n k := by
  intro d
  induction d with
  | zero => rfl
  | succ d ih =>
    show farStep ipt (farReach ipt n (k + d)) = _
    rw [ih]
    exact h

theorem farReach_growth (ipt : List ChunkCombination) (n : String) :
    ∀ k, (∀ j < k, farReach ipt n (j + 1) ≠ farReach ipt n j) →
    k + 1 ≤ (farReach ipt n k).card := by
  intro k
  induction k with
  | zero => intro _; simp [farReach]
  | succ k ih =>
    intro h
    have h1 : k + 1 ≤ (farReach ipt n k).card := ih (fun j hj => h j (Nat.lt_succ_of_lt hj))
    have hne : farReach ipt n k ≠ farReach ipt n (k + 1) :=
      fun he => h k (Nat.lt_succ_self k) he.symm
    have hss : farReach ipt n k ⊂ farReach ipt n (k + 1) :=
      lt_of_le_of_ne (farReach_mono ipt n k) hne
    have := Finset.card_lt_card hss
    omega

theorem farReach_subset_names (ipt : List ChunkCombination)
    (href : ∀ c ∈ ipt, ∀ r ∈ c.ref, r ∈ namesOf ipt) (n : String)
    (hn : n ∈ namesOf ipt) :
    ∀ k, farReach ipt n k ⊆ (namesOf ipt).toFinset := by
  intro k
  induction k with
  | zero => exact Finset.singleton_subset_iff.mpr (List.mem_toFinset.mpr hn)
  | succ k ih =>
    apply Finset.union_subset ih
    intro x hx
    rcases Finset.mem_biUnion.mp hx with ⟨m, _, hxm⟩
    exact List.mem_toFinset.mpr
      (refEdge_names ipt href m x (List.mem_toFinset.mp hxm)).2

theorem reaches_mem_farReach (ipt : List ChunkCombination)
    (href : ∀ c ∈ ipt, ∀ r ∈ c.ref, r ∈ namesOf ipt)
    (hnd : (namesOf ipt).Nodup) (n : String) (hn : n ∈ namesOf ipt) (m : String)
    (h : Reaches ipt n m) : m ∈ farReach ipt n ipt.length := by
  have hex : ∃ k, m ∈ farReach ipt n k := by
    induction h with
    | refl => exact ⟨0, Finset.mem_singleton_self n⟩
    | tail _ hbc ih =>
      obtain ⟨k, hk⟩ := ih
      exact ⟨k + 1, Finset.mem_union_right _
        (Finset.mem_biUnion.mpr ⟨_, hk, List.mem_toFinset.mpr hbc⟩)⟩
  obtain ⟨k, hk⟩ := hex
  have hNcard : ((namesOf ipt).toFinset).card = ipt.length := by
    rw [List.toFinset_card_of_nodup hnd]
    unfold namesOf
    rw [List.length_map]
  have hstab : ∃ j, j < ipt.length ∧ farReach ipt n (j + 1) = farReach ipt n j := by
    by_contra hno
    push_neg at hno
    have hg := farReach_growth ipt n ipt.length hno
    have hc := Finset.card_le_card (farReach_subset_names ipt href n hn ipt.length)
    omega
  obtain ⟨j, hj, hstabj⟩ := hstab
  by_cases hkN : k ≤ ipt.length
  · obtain ⟨d, hd⟩ := Nat.exists_eq_add_of_le hkN
    rw [hd]
    exact farReach_le_mono ipt n k d hk
  · push_neg at hkN
    have h1 : farReach ipt n k = farReach ipt n j := by
      rw [show k = j + (k - j) from by omega]
      exact farReach_stab ipt n j hstabj (k - j)
    have h2 : farReach ipt n j ⊆ farReach ipt n ipt.length := by
      obtain ⟨d, hd⟩ : ∃ d, ipt.length = j + d := ⟨ipt.length - j, by omega⟩
      rw [hd]
      exact farReach_le_mono ipt n j d
    exact h2 (h1 ▸ hk)

theorem nearLevel_zero (ipt : List ChunkCombination) (n : String) :
    nearLevel ipt 0 n = ownChunks ipt n := by
  unfold nearLevel
  show Finset.biUnion {n} (ownChunks ipt) = _
  rw [Finset.singleton_biUnion]

theorem nearLevel_succ (ipt : List ChunkCombination) (k : Nat) (n : String) :
    nearLevel ipt (k + 1) n
      = ownChunks ipt n
        ∪ ((refsOfName ipt n).toFinset).biUnion (fun r => nearLevel ipt k r) := by
  unfold nearLevel
  show (insert n (((refsOfName ipt n).toFinset).biUnion (nearNodes ipt k))).biUnion
    (ownChunks ipt) = _
  rw [Finset.biUnion_insert, Finset.biUnion_biUnion]

theorem passIter_nearLevel (ipt : List ChunkCombination)
    (hnd : (namesOf ipt).Nodup)
    (href : ∀ c ∈ ipt, ∀ r ∈ c.ref, r ∈ namesOf ipt) :
    ∀ (k : Nat) (n : String), n ∈ namesOf ipt →
    nearLevel ipt k n ⊆ lookupSet (passIter (refsIdx ipt) k (initState ipt)) n := by
  intro k
  induction k with
  | zero =>
    intro n _
    rw [nearLevel_zero, show passIter (refsIdx ipt) 0 (initState ipt) = initState ipt
      from rfl, lookupSet_initState]
  | succ k ih =>
    intro n hn
    rw [nearLevel_succ]
    apply Finset.union_subset
    · have h0 : ownChunks ipt n ⊆ lookupSet (initState ipt) n := by
        rw [lookupSet_initState]
      exact subset_trans h0
        (passIter_lookup_mono (refsIdx ipt) n (k + 1) (initState ipt))
    · intro x hx
      rcases Finset.mem_biUnion.mp hx with ⟨r, hr, hxr⟩
      have hrname : r ∈ namesOf ipt :=
        (refEdge_names ipt href n r (List.mem_toFinset.mp hr)).2
      have h1 : x ∈ lookupSet (passIter (refsIdx ipt) k (initState ipt)) r :=
        ih r hrname hxr
      have hkey : n ∈ (passIter (refsIdx ipt) k (initState ipt)).map Prod.fst := by
        rw [passIter_keys, initState_keys]
        exact hn
      exact foldl_pull (refsIdx ipt) (passIter (refsIdx ipt) k (initState ipt), false)
        (by rw [refsIdx_keys]; exact hnd) n (refsOfName ipt n)
        (mem_refsIdx_of_name ipt n hn) hkey r (List.mem_toFinset.mp hr) h1

theorem fixed_complete (ipt : List ChunkCombination) (st : RState)
    (hfix : ∀ e ∈ refsIdx ipt, unionRefs st e.2 ⊆ lookupSet st e.1)
    (hown : ∀ n, ownChunks ipt n ⊆ lookupSet st n) :
    ∀ n m, Reaches ipt n m → ownChunks ipt m ⊆ lookupSet st n := by
  intro n m h
  induction h using Relation.ReflTransGen.head_induction_on with
  | refl => exact hown m
  | head hedge _ ih =>
    exact subset_trans ih (subset_trans (lookupSet_subset_unionRefs st hedge)
      (hfix _ (mem_refsIdx_of_name ipt _ (refEdge_src ipt _ _ hedge))))

theorem firstUnknownRef_none (ipt : List ChunkCombination)
    (href : ∀ c ∈ ipt, ∀ r ∈ c.ref, r ∈ namesOf ipt) :
    firstUnknownRef ipt = none := by
  unfold firstUnknownRef
  rw [List.findSome?_eq_none_iff.mpr]
  intro c hc
  rw [Option.map_eq_none']
  rw [List.find?_eq_none]
  intro r hr
  simp [href c hc r hr]

theorem loopGo_false (combos : List (String × List String)) :
    ∀ (f : Nat) (st : RState), loopGo combos f false st = (st, false, f) := by
  intro f st
  cases f with
  | zero => rfl
  | succ f => rfl

theorem loopGo_spec (combos : List (String × List String)) :
    ∀ (fuel : Nat) (st : RState),
    (∃ k, k < fuel ∧ (onePass combos (passIter combos k st)).2 = false) →
    ∃ kk, (onePass combos (passIter combos kk st)).2 = false ∧
      (loopGo combos fuel true st).1 = (onePass combos (passIter combos kk st)).1 ∧
      (loopGo combos fuel true st).2.1 = false := by
  intro fuel
  induction fuel with
  | zero =>
    intro st h
    obtain ⟨k, hk, _⟩ := h
    omega
  | succ f ih =>
    intro st h
    have hred : loopGo combos (f + 1) true st
        = loopGo combos f (onePass combos st).2 (onePass combos st).1 := rfl
    rcases hch : (onePass combos st).2 with _ | _
    · refine ⟨0, hch, ?_, ?_⟩
      · rw [hred, hch, loopGo_false]
        rfl
      · rw [hred, hch, loopGo_false]
    · have h2 : ∃ k, k < f ∧
          (onePass combos (passIter combos k ((onePass combos st).1))).2 = false := by
        obtain ⟨k, hk, hkc⟩ := h
        cases k with
        | zero =>
          rw [show passIter combos 0 st = st from rfl, hch] at hkc
          exact absurd hkc (by simp)
        | succ k0 =>
          refine ⟨k0, by omega, ?_⟩
          rw [← passIter_succ_comm]
          exact hkc
      obtain ⟨kk, hkk1, hkk2, hkk3⟩ := ih ((onePass combos st).1) h2
      refine ⟨kk + 1, ?_, ?_, ?_⟩
      · rw [passIter_succ_comm]
        exact hkk1
      · rw [hred, hch, passIter_succ_comm]
        exact hkk2
      · rw [hred, hch]
        exact hkk3

/-- Resolving a list of combinations that carry no references and whose
chunk lists are sorted and duplicate-free returns it unchanged. -/
theorem resolveCombinations_identity (res : List ChunkCombination)
    (hnd2 : (res.map ChunkCombination.name).Nodup)
    (hsorted : List.Sorted byName res)
    (hc : ∀ c ∈ res, c.ref = [] ∧ c.chunks.Sorted (· ≤ ·) ∧ c.chunks.Nodup) :
    resolveCombinations res = .ok res := by
  have hfk : firstUnknownRef res = none := by
    unfold firstUnknownRef
    rw [List.findSome?_eq_none_iff.mpr]
    intro c hcm
    rw [(hc c hcm).1]
    rfl
  have hfix : ∀ e ∈ refsIdx res, unionRefs (initState res) e.2
      ⊆ lookupSet (initState res) e.1 := by
    intro e he
    obtain ⟨c, hcm, rfl⟩ := List.mem_map.mp he
    show unionRefs (initState res) c.ref ⊆ _
    rw [(hc c hcm).1]
    intro x hx
    exact absurd hx (by simp [unionRefs])
  have hndk : ((initState res).map Prod.fst).Nodup := by
    rw [initState_keys]
    exact hnd2
  have hpass : onePass (refsIdx res) (initState res) = (initState res, false) :=
    foldl_nochange_of_fixed (refsIdx res) (initState res) hndk hfix
  have hloop : loopGo (refsIdx res) (res.length + 2) true (initState res)
      = (initState res, false, res.length + 1) := by
    have hred : loopGo (refsIdx res) (res.length + 2) true (initState res)
        = loopGo (refsIdx res) (res.length + 1)
          (onePass (refsIdx res) (initState res)).2
          (onePass (refsIdx res) (initState res)).1 := rfl
    rw [hred, hpass]
    exact loopGo_false (refsIdx res) (res.length + 1) (initState res)
  have hmapself : (initState res).map
      (fun e => ChunkCombination.mk e.1 [] (Finset.sort (· ≤ ·) e.2)) = res := by
    unfold initState
    rw [List.map_map]
    have hcongr : ∀ c ∈ res,
        ChunkCombination.mk c.name [] (Finset.sort (· ≤ ·) c.chunks.toFinset) = c := by
      intro c hcm
      obtain ⟨h1, h2, h3⟩ := hc c hcm
      have hs : Finset.sort (· ≤ ·) c.chunks.toFinset = c.chunks :=
        (List.toFinset_sort (· ≤ ·) h3).mpr h2
      rcases c with ⟨nm, rf, ch⟩
      simp only at h1 hs
      rw [h1] at *
      rw [hs]
    calc res.map ((fun e => ChunkCombination.mk e.1 [] (Finset.sort (· ≤ ·) e.2))
          ∘ (fun c => (c.name, c.chunks.toFinset)))
        = res.map id := List.map_congr_left (fun c hcm => hcongr c hcm)
      _ = res := List.map_id res
  unfold resolveCombinations
  rw [hfk]
  dsimp only
  rw [hloop]
  show Except.ok (List.insertionSort byName ((initState res).map
    (fun e => ChunkCombination.mk e.1 [] (Finset.sort (· ≤ ·) e.2)))) = _
  rw [hmapself, List.Sorted.insertionSort_eq hsorted]

/-- C9: for inputs whose reference edges name existing combinations (and
with distinct combination names), `resolveCombinations` succeeds — the
fixed-point loop settles within its `len+1` iteration budget, so the
cyclic-reference error never fires — and returns one entry per name,
sorted by name, whose chunk list is the sorted union of the combination's
own chunks and those of every transitively referenced combination; running
the function again on its own output returns it unchanged. -/
theorem resolveCombinations_correct (ipt : List ChunkCombination)
    (hnd : (namesOf ipt).Nodup)
    (href : ∀ c ∈ ipt, ∀ r ∈ c.ref, r ∈ namesOf ipt) :
    ∃ res, resolveCombinations ipt = .ok res ∧
      (res.map ChunkCombination.name).Perm (namesOf ipt) ∧
      (res.map ChunkCombination.name).Sorted (· ≤ ·) ∧
      (∀ c ∈ res, c.ref = [] ∧ c.chunks.Sorted (· ≤ ·) ∧ c.chunks.Nodup ∧
        (∀ x, x ∈ c.chunks ↔ ∃ m, Reaches ipt c.name m ∧ x ∈ ownChunks ipt m)) ∧
      resolveCombinations res = .ok res := by
  have hkeys0 : (initState ipt).map Prod.fst = namesOf ipt := initState_keys ipt
  have hsound0 : SoundState ipt (initState ipt) := by
    intro n x hx
    rw [lookupSet_initState] at hx
    exact ⟨n, Relation.ReflTransGen.refl, hx⟩
  have hkeysN : (passIter (refsIdx ipt) ipt.length (initState ipt)).map Prod.fst
      = namesOf ipt := by
    rw [passIter_keys, hkeys0]
  have hsoundN : SoundState ipt (passIter (refsIdx ipt) ipt.length (initState ipt)) :=
    passIter_sound ipt hnd ipt.length (initState ipt) hsound0
  have hfixN : ∀ e ∈ refsIdx ipt,
      unionRefs (passIter (refsIdx ipt) ipt.length (initState ipt)) e.2
        ⊆ lookupSet (passIter (refsIdx ipt) ipt.length (initState ipt)) e.1 := by
    intro e he
    have hrs : e.2 = refsOfName ipt e.1 := refsIdx_mem ipt e.1 e.2 hnd he
    have hname : e.1 ∈ namesOf ipt := by
      rw [← refsIdx_keys ipt]
      exact List.mem_map_of_mem Prod.fst he
    intro x hx
    rcases (mem_unionRefs _ e.2 x).mp hx with ⟨r, hr, hxr⟩
    obtain ⟨m, hm1, hm2⟩ := hsoundN r x hxr
    have hreach : Reaches ipt e.1 m := by
      refine Relation.ReflTransGen.head ?_ hm1
      show RefEdge ipt e.1 r
      unfold RefEdge
      rw [← hrs]
      exact hr
    have hfar : m ∈ farReach ipt e.1 ipt.length :=
      reaches_mem_farReach ipt href hnd e.1 hname m hreach
    have hlev : x ∈ nearLevel ipt ipt.length e.1 :=
      Finset.mem_biUnion.mpr ⟨m, farReach_subset_nearNodes ipt ipt.length e.1 hfar, hm2⟩
    exact passIter_nearLevel ipt hnd href ipt.length e.1 hname hlev
  have hnopassN : (onePass (refsIdx ipt)
      (passIter (refsIdx ipt) ipt.length (initState ipt))).2 = false := by
    have h1 := foldl_nochange_of_fixed (refsIdx ipt)
      (passIter (refsIdx ipt) ipt.length (initState ipt))
      (by rw [hkeysN]; exact hnd) hfixN
    show ((refsIdx ipt).foldl passStep
      (passIter (refsIdx ipt) ipt.length (initState ipt), false)).2 = false
    rw [h1]
  obtain ⟨kk, hkk1, hkk2, hkk3⟩ := loopGo_spec (refsIdx ipt) (ipt.length + 2)
    (initState ipt) ⟨ipt.length, by omega, hnopassN⟩
  have hkeysE : (passIter (refsIdx ipt) kk (initState ipt)).map Prod.fst
      = namesOf ipt := by
    rw [passIter_keys, hkeys0]
  have hnodupE : ((passIter (refsIdx ipt) kk (initState ipt)).map Prod.fst).Nodup := by
    rw [hkeysE]
    exact hnd
  obtain ⟨hEeq, hEfix⟩ := foldl_nochange (refsIdx ipt)
    (passIter (refsIdx ipt) kk (initState ipt)) hnodupE hkk1
  have hloopState : (loopGo (refsIdx ipt) (ipt.length + 2) true (initState ipt)).1
      = passIter (refsIdx ipt) kk (initState ipt) := by
    rw [hkk2]
    exact hEeq
  have hsoundE : SoundState ipt (passIter (refsIdx ipt) kk (initState ipt)) :=
    passIter_sound ipt hnd kk (initState ipt) hsound0
  have hownE : ∀ n, ownChunks ipt n
      ⊆ lookupSet (passIter (refsIdx ipt) kk (initState ipt)) n := by
    intro n
    have h0 : ownChunks ipt n ⊆ lookupSet (initState ipt) n := by
      rw [lookupSet_initState]
    exact subset_trans h0 (passIter_lookup_mono (refsIdx ipt) n kk (initState ipt))
  have hcharE : ∀ n x, x ∈ lookupSet (passIter (refsIdx ipt) kk (initState ipt)) n
      ↔ ∃ m, Reaches ipt n m ∧ x ∈ ownChunks ipt m := by
    intro n x
    constructor
    · exact hsoundE n x
    · rintro ⟨m, hm1, hm2⟩
      exact fixed_complete ipt (passIter (refsIdx ipt) kk (initState ipt))
        hEfix hownE n m hm1 hm2
  have hret : resolveCombinations ipt = .ok (List.insertionSort byName
      ((passIter (refsIdx ipt) kk (initState ipt)).map
        (fun e => ChunkCombination.mk e.1 [] (Finset.sort (· ≤ ·) e.2)))) := by
    unfold resolveCombinations
    rw [firstUnknownRef_none ipt href]
    dsimp only
    rw [hkk3, hloopState]
    simp only [Bool.false_and, Bool.false_eq_true, if_false]
  refine ⟨_, hret, ?_, ?_, ?_, ?_⟩
  · have hperm0 := List.perm_insertionSort byName
      ((passIter (refsIdx ipt) kk (initState ipt)).map
        (fun e => ChunkCombination.mk e.1 [] (Finset.sort (· ≤ ·) e.2)))
    have hperm1 := hperm0.map ChunkCombination.name
    have hmn : ((passIter (refsIdx ipt) kk (initState ipt)).map
        (fun e => ChunkCombination.mk e.1 [] (Finset.sort (· ≤ ·) e.2))).map
          ChunkCombination.name = namesOf ipt := by
      rw [List.map_map]
      exact hkeysE
    rw [hmn] at hperm1
    exact hperm1
  · have hsorted := List.sorted_insertionSort byName
      ((passIter (refsIdx ipt) kk (initState ipt)).map
        (fun e => ChunkCombination.mk e.1 [] (Finset.sort (· ≤ ·) e.2)))
    exact List.Pairwise.map ChunkCombination.name (fun a b h => h) hsorted
  · intro c hcm
    have hcm2 : c ∈ (passIter (refsIdx ipt) kk (initState ipt)).map
        (fun e => ChunkCombination.mk e.1 [] (Finset.sort (· ≤ ·) e.2)) :=
      (List.perm_insertionSort byName _).mem_iff.mp hcm
    obtain ⟨e, heMem, rfl⟩ := List.mem_map.mp hcm2
    refine ⟨rfl, Finset.sort_sorted _ _, Finset.sort_nodup _ _, ?_⟩
    intro x
    rw [show (ChunkCombination.mk e.1 [] (Finset.sort (· ≤ ·) e.2)).chunks
        = Finset.sort (· ≤ ·) e.2 from rfl]
    rw [Finset.mem_sort]
    have he2 : lookupSet (passIter (refsIdx ipt) kk (initState ipt)) e.1 = e.2 :=
      lookupSet_mem_eq e.1 e.2 (passIter (refsIdx ipt) kk (initState ipt))
        hnodupE heMem
    rw [← he2]
    exact hcharE e.1 x
  · apply resolveCombinations_identity
    · have hperm0 := List.perm_insertionSort byName
        ((passIter (refsIdx ipt) kk (initState ipt)).map
          (fun e => ChunkCombination.mk e.1 [] (Finset.sort (· ≤ ·) e.2)))
      have hperm1 := hperm0.map ChunkCombination.name
      have hmn : ((passIter (refsIdx ipt) kk (initState ipt)).map
          (fun e => ChunkCombination.mk e.1 [] (Finset.sort (· ≤ ·) e.2))).map
            ChunkCombination.name = namesOf ipt := by
        rw [List.map_map]
        exact hkeysE
      rw [hmn] at hperm1
      exact hperm1.symm.nodup hnd
    · exact List.sorted_insertionSort byName _
    · intro c hcm
      have hcm2 : c ∈ (passIter (refsIdx ipt) kk (initState ipt)).map
          (fun e => ChunkCombination.mk e.1 [] (Finset.sort (· ≤ ·) e.2)) :=
        (List.perm_insertionSort byName _).mem_iff.mp hcm
      obtain ⟨e, _, rfl⟩ := List.mem_map.mp hcm2
      exact ⟨rfl, Finset.sort_sorted _ _, Finset.sort_nodup _ _⟩

/-- Witness: two combinations where `b` references `a`. -/
theorem resolveCombinations_correct_witness :
    ∃ res, resolveCombinations wCombos = .ok res ∧
      (res.map ChunkCombination.name).Perm (namesOf wCombos) ∧
      (res.map ChunkCombination.name).Sorted (· ≤ ·) ∧
      (∀ c ∈ res, c.ref = [] ∧ c.chunks.Sorted (· ≤ ·) ∧ c.chunks.Nodup ∧
        (∀ x, x ∈ c.chunks ↔ ∃ m, Reaches wCombos c.name m ∧ x ∈ ownChunks wCombos m)) ∧
      resolveCombinations res = .ok res :=
  resolveCombinations_correct wCombos (by decide) (by decide)

end Dazzle
